import Mathlib

/-!
# Cork quantizer: `CorkLib/Intersection/quantization.h`

A shallow embedding of the class `Cork::Quantization::Quantizer`, at two levels.

* **Exact lattice arithmetic** (`Quantizer`, `calibrate`, `Quantizer.quantize2int`, ...).
  A `double` is the exact rational number it holds, `std::pow(2.0, k)` is the exact power
  `2^k`, products are exact and `int(d)` is the mathematical truncation.  The binary
  exponents, the bit count and the lines written by `calibrate` are those of the code for
  all finite bounds.  The scale factors and the conversions are those of the code as long
  as both calls of `std::pow` stay inside the binary64 exponent range and the lattice
  integers stay inside `int`.
* **Binary64 semantics** (namespace `Binary64`).  A `double` is a finite binary64 number,
  an infinity or NaN; `std::pow(2.0, k)` overflows to `+inf` and underflows to `0`;
  products are rounded to nearest, ties to even; `int(d)` is undefined (`none`) when the
  truncated value is not a 32-bit `int` or `d` is not finite.  The lemmas
  `binary64_quantize2int_construct`, `binary64_quantizedInt2double_construct` and
  `binary64_quantize_construct` show that the two levels agree on calibrations whose scale
  factors are finite.

Conventions common to both levels.

* The bounds `maxMagnitude` and `minEdgeLength` are finite doubles, given by their values;
  `isBinary64` singles out the rationals that are binary64 numbers and `fitsInt` the
  integers that are values of a 32-bit `int`.
* The exponent arithmetic of `calibrate` is done on mathematical integers.
* `std::cout` is modelled by the list of lines written, in order.
* The constants `QUANTIZATION_BITS`, `PERTURBATION_BUFFER_BITS` and
  `MINIMUM_PERTURBATION_RANGE_BITS` are declared in `..\Math\Primitives.h`, outside
  this header; they are parameters of the definitions that use them.
* The `float` overload of `quantize` and the `Vector3D` overload (component-wise
  `quantize`, or its SSE variant under `CORK_SSE`) are not embedded.
-/

namespace Cork
namespace Quantization

/-! ## Library functions used by the class -/

/-- Exponent stored by `std::frexp(x, &e)`: the integer `e` with `x = m * 2^e` and
`0.5 <= |m| < 1`; for `x = 0` the stored exponent is `0`. -/
def frexpExponent (x : ℚ) : Int :=
  if x = 0 then 0 else Int.log 2 |x| + 1

/-- Exact power of two `2^k`: the value of `std::pow(2.0, k)` whenever it is a binary64
number (`-1074 <= k <= 1023`); the binary64 result in general is `Binary64.powTwo`. -/
def pow2 (k : Int) : ℚ := (2 : ℚ) ^ k

/-- Conversion `int(d)` of a `double`: the fractional part is discarded, that is, the
value is truncated toward zero. -/
def truncToInt (d : ℚ) : Int :=
  if 0 ≤ d then ⌊d⌋ else ⌈d⌉

/-! ## The class -/

/-- Data members of `Quantizer`: `m_magnify`, `m_reshrink`, `m_bitsOfPurturbationRange`,
the two scale factors being held as exact rationals. -/
structure Quantizer where
  m_magnify : ℚ
  m_reshrink : ℚ
  m_bitsOfPurturbationRange : Int
deriving DecidableEq, Repr

/-- Local `maxCoordinateValueBinaryExponent` of `calibrate`, after the increment. -/
def maxCoordinateValueBinaryExponent (maxMagnitude : ℚ) : Int :=
  frexpExponent maxMagnitude + 1

/-- Local `minEdgeLengthBinaryExponent` of `calibrate`. -/
def minEdgeLengthBinaryExponent (minEdgeLength : ℚ) : Int :=
  frexpExponent minEdgeLength

/-- Local `quantaBitsPerMinEdge` of `calibrate`. -/
def quantaBitsPerMinEdge (QUANTIZATION_BITS : Int) (maxMagnitude minEdgeLength : ℚ) : Int :=
  (maxCoordinateValueBinaryExponent maxMagnitude - QUANTIZATION_BITS)
    - minEdgeLengthBinaryExponent minEdgeLength

/-- Line written by `calibrate` when `quantaBitsPerMinEdge > -10`. -/
def insufficientQuantaBitsWarning : String :=
  "Insufficient number of quanta bits for min edge length"

/-- Lines written to `std::cout` by `calibrate`. -/
def calibrateOutput (QUANTIZATION_BITS : Int) (maxMagnitude minEdgeLength : ℚ) : List String :=
  ["Quanta bits per min edge: "
      ++ toString (quantaBitsPerMinEdge QUANTIZATION_BITS maxMagnitude minEdgeLength)]
    ++ (if quantaBitsPerMinEdge QUANTIZATION_BITS maxMagnitude minEdgeLength > -10
        then [insufficientQuantaBitsWarning] else [])

/-- Member function `calibrate(maxMagnitude, minEdgeLength)` in exact arithmetic: the
members it assigns, paired with the lines it writes. -/
def calibrate (QUANTIZATION_BITS : Int) (maxMagnitude minEdgeLength : ℚ) :
    Quantizer × List String :=
  ({ m_magnify := pow2 (QUANTIZATION_BITS - maxCoordinateValueBinaryExponent maxMagnitude)
     m_reshrink := pow2 (maxCoordinateValueBinaryExponent maxMagnitude - QUANTIZATION_BITS)
     m_bitsOfPurturbationRange :=
       |quantaBitsPerMinEdge QUANTIZATION_BITS maxMagnitude minEdgeLength| },
   calibrateOutput QUANTIZATION_BITS maxMagnitude minEdgeLength)

/-- Constructor `Quantizer(maxMagnitude, minEdgeLength)`: it only calls `calibrate`. -/
def Quantizer.construct (QUANTIZATION_BITS : Int) (maxMagnitude minEdgeLength : ℚ) :
    Quantizer :=
  (calibrate QUANTIZATION_BITS maxMagnitude minEdgeLength).1

/-- Member function `sufficientPerturbationRange()`. -/
def Quantizer.sufficientPerturbationRange
    (PERTURBATION_BUFFER_BITS MINIMUM_PERTURBATION_RANGE_BITS : Int) (q : Quantizer) : Bool :=
  decide (q.m_bitsOfPurturbationRange
    ≥ PERTURBATION_BUFFER_BITS + MINIMUM_PERTURBATION_RANGE_BITS)

/-- Member function `bitsOfPurturbationRange()`. -/
def Quantizer.bitsOfPurturbationRange (q : Quantizer) : Int :=
  q.m_bitsOfPurturbationRange

/-- Member function `purturbationQuantum()`. -/
def Quantizer.purturbationQuantum (q : Quantizer) : ℚ :=
  q.m_reshrink

/-- Member function `quantize2int(number)` in exact arithmetic. -/
def Quantizer.quantize2int (q : Quantizer) (number : ℚ) : Int :=
  truncToInt (number * q.m_magnify)

/-- Member function `quantizedInt2double(number)` in exact arithmetic. -/
def Quantizer.quantizedInt2double (q : Quantizer) (number : Int) : ℚ :=
  q.m_reshrink * (number : ℚ)

/-- Member function `quantize(double number)` in exact arithmetic. -/
def Quantizer.quantize (q : Quantizer) (number : ℚ) : ℚ :=
  q.m_reshrink * ((truncToInt (number * q.m_magnify) : Int) : ℚ)

/-- Member function `reshrink(number)` in exact arithmetic. -/
def Quantizer.reshrink (q : Quantizer) (number : ℚ) : ℚ :=
  q.m_reshrink * number

/-- Copy constructor `Quantizer(const Quantizer& quantizerToCopy)`.  Its initialiser list
names `m_magnify` and `m_reshrink` only; `m_bitsOfPurturbationRange` has no initialiser, so
the new object holds an indeterminate `int` there, which is the parameter `indeterminate`. -/
def Quantizer.copy (indeterminate : Int) (quantizerToCopy : Quantizer) : Quantizer :=
  { m_magnify := quantizerToCopy.m_magnify
    m_reshrink := quantizerToCopy.m_reshrink
    m_bitsOfPurturbationRange := indeterminate }

/-! ## The machine types -/

/-- Least value of a 32-bit `int`. -/
def INT_MIN : Int := -2147483648

/-- Greatest value of a 32-bit `int`. -/
def INT_MAX : Int := 2147483647

/-- Whether a mathematical integer is a value of a 32-bit `int`. -/
def fitsInt (n : Int) : Bool :=
  decide (INT_MIN ≤ n) && decide (n ≤ INT_MAX)

/-- Whether a rational is a finite value of the binary64 format of `double`: zero, or a
number whose `frexp` exponent `e` is at most `1024` and which is an integer multiple of
`2^(max (e - 53) (-1074))` (53 significant bits; the least subnormal is `2^(-1074)`). -/
def isBinary64 (x : ℚ) : Bool :=
  decide (x = 0)
    || (decide (frexpExponent x ≤ 1024)
        && decide ((x / pow2 (max (frexpExponent x - 53) (-1074))).den = 1))

/-! ## The binary64 semantics of the class -/

namespace Binary64

/-- Values of a `double`: the finite binary64 numbers, given by the rational they hold,
the two infinities and NaN.  The two signed zeros are both `finite 0`; every operation of
the class treats them alike. -/
inductive Double where
  | finite (value : ℚ)
  | posInf
  | negInf
  | nan
deriving DecidableEq, Repr

/-- Nearest integer to a rational, ties to the even integer. -/
def roundNearestEven (t : ℚ) : Int :=
  if t - ⌊t⌋ < 1 / 2 then ⌊t⌋
  else if 1 / 2 < t - ⌊t⌋ then ⌊t⌋ + 1
  else if ⌊t⌋ % 2 = 0 then ⌊t⌋
  else ⌊t⌋ + 1

/-- Rounding of an exact result to binary64, to nearest with ties to even: the result is
rounded to a multiple of `2^(max (e - 53) (-1074))`, `e` its `frexp` exponent, and becomes
an infinity when the rounded magnitude reaches `2^1024`. -/
def roundBinary64 (y : ℚ) : Double :=
  if y = 0 then Double.finite 0
  else if Quantization.pow2 1024
      ≤ |((roundNearestEven (y / Quantization.pow2 (max (frexpExponent y - 53) (-1074)))
            : Int) : ℚ)
          * Quantization.pow2 (max (frexpExponent y - 53) (-1074))|
    then (if 0 < y then Double.posInf else Double.negInf)
  else Double.finite
    (((roundNearestEven (y / Quantization.pow2 (max (frexpExponent y - 53) (-1074)))
        : Int) : ℚ)
      * Quantization.pow2 (max (frexpExponent y - 53) (-1074)))

/-- Product `a * b` of two `double` values. -/
def Double.mul : Double → Double → Double
  | Double.finite a, Double.finite b => roundBinary64 (a * b)
  | Double.finite a, Double.posInf =>
      if a = 0 then Double.nan else if 0 < a then Double.posInf else Double.negInf
  | Double.finite a, Double.negInf =>
      if a = 0 then Double.nan else if 0 < a then Double.negInf else Double.posInf
  | Double.posInf, Double.finite b =>
      if b = 0 then Double.nan else if 0 < b then Double.posInf else Double.negInf
  | Double.negInf, Double.finite b =>
      if b = 0 then Double.nan else if 0 < b then Double.negInf else Double.posInf
  | Double.posInf, Double.posInf => Double.posInf
  | Double.posInf, Double.negInf => Double.negInf
  | Double.negInf, Double.posInf => Double.negInf
  | Double.negInf, Double.negInf => Double.posInf
  | Double.nan, _ => Double.nan
  | _, Double.nan => Double.nan

/-- Conversion `double(n)` of an `int`: every 32-bit integer is a binary64 number. -/
def Double.ofInt (n : Int) : Double :=
  Double.finite (n : ℚ)

/-- Conversion `int(d)` of a `double`: truncation toward zero when the truncated value is
a value of `int`; otherwise, and for infinities and NaN, the behaviour is undefined, which
is the result `none`. -/
def Double.toInt : Double → Option Int
  | Double.finite d => if fitsInt (truncToInt d) then some (truncToInt d) else none
  | _ => none

/-- Value of `std::pow(2.0, k)` in binary64: `2^k` when it is representable
(`-1074 <= k <= 1023`), `+inf` on overflow, `0` on underflow. -/
def powTwo (k : Int) : Double :=
  if 1024 ≤ k then Double.posInf
  else if k ≤ -1075 then Double.finite 0
  else Double.finite (Quantization.pow2 k)

/-- Data members of `Quantizer`, the two scale factors being `double` values. -/
structure Quantizer where
  m_magnify : Double
  m_reshrink : Double
  m_bitsOfPurturbationRange : Int
deriving DecidableEq, Repr

/-- Member function `calibrate(maxMagnitude, minEdgeLength)` for finite bounds, given by
their values: the members it assigns, paired with the lines it writes. -/
def calibrate (QUANTIZATION_BITS : Int) (maxMagnitude minEdgeLength : ℚ) :
    Quantizer × List String :=
  ({ m_magnify := powTwo (QUANTIZATION_BITS - maxCoordinateValueBinaryExponent maxMagnitude)
     m_reshrink := powTwo (maxCoordinateValueBinaryExponent maxMagnitude - QUANTIZATION_BITS)
     m_bitsOfPurturbationRange :=
       |quantaBitsPerMinEdge QUANTIZATION_BITS maxMagnitude minEdgeLength| },
   calibrateOutput QUANTIZATION_BITS maxMagnitude minEdgeLength)

/-- Constructor `Quantizer(maxMagnitude, minEdgeLength)`: it only calls `calibrate`. -/
def Quantizer.construct (QUANTIZATION_BITS : Int) (maxMagnitude minEdgeLength : ℚ) :
    Quantizer :=
  (calibrate QUANTIZATION_BITS maxMagnitude minEdgeLength).1

/-- Member function `bitsOfPurturbationRange()`. -/
def Quantizer.bitsOfPurturbationRange (q : Quantizer) : Int :=
  q.m_bitsOfPurturbationRange

/-- Member function `quantize2int(number)`; `none` when the conversion to `int` is
undefined. -/
def Quantizer.quantize2int (q : Quantizer) (number : Double) : Option Int :=
  (number.mul q.m_magnify).toInt

/-- Member function `quantizedInt2double(number)`. -/
def Quantizer.quantizedInt2double (q : Quantizer) (number : Int) : Double :=
  q.m_reshrink.mul (Double.ofInt number)

/-- Member function `quantize(double number)`; `none` when the conversion to `int` is
undefined. -/
def Quantizer.quantize (q : Quantizer) (number : Double) : Option Double :=
  match (number.mul q.m_magnify).toInt with
  | some n => some (q.m_reshrink.mul (Double.ofInt n))
  | none => none

end Binary64

/-! ## Facts about the library functions -/

theorem pow2_pos (k : Int) : 0 < pow2 k := by
  unfold pow2
  positivity

theorem pow2_add (a b : Int) : pow2 (a + b) = pow2 a * pow2 b := by
  unfold pow2
  exact zpow_add₀ (by norm_num) a b

theorem pow2_zero : pow2 0 = 1 := by
  simp [pow2]

theorem pow2_mul_pow2_neg (a b : Int) : pow2 (a - b) * pow2 (b - a) = 1 := by
  rw [← pow2_add]
  have h : a - b + (b - a) = 0 := by ring
  rw [h, pow2_zero]

theorem pow2_le_pow2 {a b : Int} (h : a ≤ b) : pow2 a ≤ pow2 b := by
  unfold pow2
  exact zpow_le_zpow_right₀ (by norm_num) h

theorem pow2_lt_pow2 {a b : Int} (h : a < b) : pow2 a < pow2 b := by
  unfold pow2
  exact zpow_lt_zpow_right₀ (by norm_num) h

theorem pow2_lt_pow2_iff {a b : Int} : pow2 a < pow2 b ↔ a < b := by
  unfold pow2
  exact zpow_lt_zpow_iff_right₀ (by norm_num)

/-- The exponent of `frexp` brackets a non-zero argument between consecutive powers of two. -/
theorem frexpExponent_spec {x : ℚ} (hx : x ≠ 0) :
    pow2 (frexpExponent x - 1) ≤ |x| ∧ |x| < pow2 (frexpExponent x) := by
  have hpos : 0 < |x| := abs_pos.mpr hx
  unfold frexpExponent pow2
  rw [if_neg hx]
  constructor
  · have h := Int.zpow_log_le_self (b := 2) (by norm_num) hpos
    simpa using h
  · have h := Int.lt_zpow_succ_log_self (b := 2) (by norm_num) |x|
    simpa using h

/-- The bracketing property determines the exponent of `frexp`. -/
theorem frexpExponent_unique {x : ℚ} {e : Int}
    (hlo : pow2 (e - 1) ≤ |x|) (hhi : |x| < pow2 e) : frexpExponent x = e := by
  have hpos : 0 < |x| := lt_of_lt_of_le (pow2_pos _) hlo
  have hx : x ≠ 0 := abs_pos.mp hpos
  obtain ⟨h1, h2⟩ := frexpExponent_spec hx
  have ha : e - 1 < frexpExponent x := pow2_lt_pow2_iff.mp (lt_of_le_of_lt hlo h2)
  have hb : frexpExponent x - 1 < e := pow2_lt_pow2_iff.mp (lt_of_le_of_lt h1 hhi)
  omega

/-- On positive arguments the exponent of `frexp` is monotone. -/
theorem frexpExponent_mono {a b : ℚ} (ha : 0 < a) (hab : a ≤ b) :
    frexpExponent a ≤ frexpExponent b := by
  have hb : 0 < b := lt_of_lt_of_le ha hab
  obtain ⟨h1, _⟩ := frexpExponent_spec (ne_of_gt ha)
  obtain ⟨_, h2⟩ := frexpExponent_spec (ne_of_gt hb)
  rw [abs_of_pos ha] at h1
  rw [abs_of_pos hb] at h2
  have h : frexpExponent a - 1 < frexpExponent b :=
    pow2_lt_pow2_iff.mp (lt_of_le_of_lt (le_trans h1 hab) h2)
  omega

theorem truncToInt_intCast (n : Int) : truncToInt (n : ℚ) = n := by
  unfold truncToInt
  split <;> simp

theorem truncToInt_of_nonneg {d : ℚ} (h : 0 ≤ d) :
    (0 : ℚ) ≤ truncToInt d ∧ (truncToInt d : ℚ) ≤ d ∧ d < truncToInt d + 1 := by
  unfold truncToInt
  rw [if_pos h]
  refine ⟨?_, Int.floor_le d, Int.lt_floor_add_one d⟩
  exact_mod_cast Int.floor_nonneg.mpr h

theorem truncToInt_of_nonpos {d : ℚ} (h : d ≤ 0) :
    (truncToInt d : ℚ) ≤ 0 ∧ d ≤ truncToInt d ∧ (truncToInt d : ℚ) - 1 < d := by
  rcases eq_or_lt_of_le h with h0 | hneg
  · subst h0
    have : truncToInt (0 : ℚ) = 0 := by simpa using truncToInt_intCast 0
    rw [this]
    norm_num
  · unfold truncToInt
    rw [if_neg (not_le.mpr hneg)]
    refine ⟨?_, Int.le_ceil d, ?_⟩
    · exact_mod_cast Int.ceil_le.mpr (by simpa using h)
    · have := Int.ceil_lt_add_one d
      linarith

theorem abs_truncToInt_le (d : ℚ) : |(truncToInt d : ℚ)| ≤ |d| := by
  rcases le_total 0 d with h | h
  · obtain ⟨h1, h2, _⟩ := truncToInt_of_nonneg h
    rw [abs_of_nonneg h1, abs_of_nonneg h]
    exact h2
  · obtain ⟨h1, h2, _⟩ := truncToInt_of_nonpos h
    rw [abs_of_nonpos h1, abs_of_nonpos h]
    linarith

theorem abs_truncToInt_sub_lt (d : ℚ) : |(truncToInt d : ℚ) - d| < 1 := by
  rcases le_total 0 d with h | h
  · obtain ⟨_, h2, h3⟩ := truncToInt_of_nonneg h
    rw [abs_lt]
    constructor <;> linarith
  · obtain ⟨_, h2, h3⟩ := truncToInt_of_nonpos h
    rw [abs_lt]
    constructor <;> linarith

theorem le_truncToInt_of_le {d : ℚ} {j : Int} (h : 0 ≤ d) (hj : (j : ℚ) ≤ d) :
    j ≤ truncToInt d := by
  unfold truncToInt
  rw [if_pos h]
  exact Int.le_floor.mpr hj

theorem truncToInt_le_of_le {d : ℚ} {j : Int} (h : d ≤ 0) (hj : d ≤ (j : ℚ)) :
    truncToInt d ≤ j := by
  rcases eq_or_lt_of_le h with h0 | hneg
  · subst h0
    have h1 : truncToInt (0 : ℚ) = 0 := by simpa using truncToInt_intCast 0
    rw [h1]
    exact_mod_cast hj
  · unfold truncToInt
    rw [if_neg (not_le.mpr hneg)]
    exact Int.ceil_le.mpr hj

/-! ## Unfolding lemmas for the member functions -/

theorem maxCoordinateValueBinaryExponent_eq (M : ℚ) :
    maxCoordinateValueBinaryExponent M = frexpExponent M + 1 := rfl

theorem minEdgeLengthBinaryExponent_eq (m : ℚ) :
    minEdgeLengthBinaryExponent m = frexpExponent m := rfl

theorem bitsOfPurturbationRange_eq (q : Quantizer) :
    q.bitsOfPurturbationRange = q.m_bitsOfPurturbationRange := rfl

theorem sufficientPerturbationRange_iff (a b : Int) (q : Quantizer) :
    q.sufficientPerturbationRange a b = true ↔ q.m_bitsOfPurturbationRange ≥ a + b := by
  unfold Quantizer.sufficientPerturbationRange
  exact decide_eq_true_iff

theorem quantize2int_eq (q : Quantizer) (x : ℚ) :
    q.quantize2int x = truncToInt (x * q.m_magnify) := rfl

theorem quantizedInt2double_eq (q : Quantizer) (n : Int) :
    q.quantizedInt2double n = q.m_reshrink * (n : ℚ) := rfl

theorem quantize_eq (q : Quantizer) (x : ℚ) :
    q.quantize x = q.m_reshrink * ((truncToInt (x * q.m_magnify) : Int) : ℚ) := rfl

/-! ## Facts about `calibrate` -/

theorem construct_magnify (B : Int) (M m : ℚ) :
    (Quantizer.construct B M m).m_magnify = pow2 (B - (frexpExponent M + 1)) := rfl

theorem construct_reshrink (B : Int) (M m : ℚ) :
    (Quantizer.construct B M m).m_reshrink = pow2 ((frexpExponent M + 1) - B) := rfl

theorem construct_bits (B : Int) (M m : ℚ) :
    (Quantizer.construct B M m).m_bitsOfPurturbationRange
      = |((frexpExponent M + 1) - B) - frexpExponent m| := rfl

theorem construct_magnify_pos (B : Int) (M m : ℚ) :
    0 < (Quantizer.construct B M m).m_magnify := by
  rw [construct_magnify]
  exact pow2_pos _

theorem construct_reshrink_pos (B : Int) (M m : ℚ) :
    0 < (Quantizer.construct B M m).m_reshrink := by
  rw [construct_reshrink]
  exact pow2_pos _

theorem construct_magnify_mul_reshrink (B : Int) (M m : ℚ) :
    (Quantizer.construct B M m).m_magnify * (Quantizer.construct B M m).m_reshrink = 1 := by
  rw [construct_magnify, construct_reshrink]
  exact pow2_mul_pow2_neg _ _

theorem construct_reshrink_mul_magnify (B : Int) (M m : ℚ) :
    (Quantizer.construct B M m).m_reshrink * (Quantizer.construct B M m).m_magnify = 1 := by
  rw [mul_comm]
  exact construct_magnify_mul_reshrink B M m

/-- The comment in `calibrate`: the largest magnitude, magnified, stays below the lattice
bound; the increment of the exponent leaves one further bit of room. -/
theorem construct_maxMagnitude_mul_magnify_lt (B : Int) {M : ℚ} (m : ℚ) (hM : 0 < M) :
    M * (Quantizer.construct B M m).m_magnify < pow2 (B - 1) := by
  obtain ⟨_, h2⟩ := frexpExponent_spec (ne_of_gt hM)
  rw [abs_of_pos hM] at h2
  rw [construct_magnify]
  have hsplit : pow2 (B - 1) = pow2 (frexpExponent M) * pow2 (B - (frexpExponent M + 1)) := by
    rw [← pow2_add]
    congr 1
    ring
  rw [hsplit]
  exact mul_lt_mul_of_pos_right h2 (pow2_pos _)

theorem construct_abs_mul_magnify_lt (B : Int) {M x : ℚ} (m : ℚ) (hM : 0 < M)
    (hx : |x| ≤ M) :
    |x * (Quantizer.construct B M m).m_magnify| < pow2 (B - 1) := by
  rw [abs_mul, abs_of_pos (construct_magnify_pos B M m)]
  exact lt_of_le_of_lt
    (mul_le_mul_of_nonneg_right hx (le_of_lt (construct_magnify_pos B M m)))
    (construct_maxMagnitude_mul_magnify_lt B m hM)

/-- Magnifying a lattice point `reshrink * n` gives back the integer `n`. -/
theorem construct_reshrink_mul_int_mul_magnify (B : Int) (M m : ℚ) (n : Int) :
    (Quantizer.construct B M m).m_reshrink * (n : ℚ) * (Quantizer.construct B M m).m_magnify
      = (n : ℚ) := by
  have h := construct_reshrink_mul_magnify B M m
  calc (Quantizer.construct B M m).m_reshrink * (n : ℚ) * (Quantizer.construct B M m).m_magnify
      = (n : ℚ) * ((Quantizer.construct B M m).m_reshrink
          * (Quantizer.construct B M m).m_magnify) := by ring
    _ = (n : ℚ) := by rw [h, mul_one]

/-- Shrinking a magnified number gives back the number. -/
theorem construct_reshrink_mul_magnified (B : Int) (M m x : ℚ) :
    (Quantizer.construct B M m).m_reshrink * (x * (Quantizer.construct B M m).m_magnify)
      = x := by
  have h := construct_reshrink_mul_magnify B M m
  calc (Quantizer.construct B M m).m_reshrink * (x * (Quantizer.construct B M m).m_magnify)
      = x * ((Quantizer.construct B M m).m_reshrink
          * (Quantizer.construct B M m).m_magnify) := by ring
    _ = x := by rw [h, mul_one]

/-- A number is a lattice point exactly when its magnification is an integer. -/
theorem construct_eq_int_mul_reshrink_iff (B : Int) (M m x : ℚ) (j : Int) :
    x = (j : ℚ) * (Quantizer.construct B M m).m_reshrink
      ↔ x * (Quantizer.construct B M m).m_magnify = (j : ℚ) := by
  constructor
  · intro h
    rw [h, mul_comm (j : ℚ)]
    exact construct_reshrink_mul_int_mul_magnify B M m j
  · intro h
    rw [← h, mul_comm]
    exact (construct_reshrink_mul_magnified B M m x).symm

/-- The bracketing property, for a positive argument without the absolute value. -/
theorem frexpExponent_eq_of_pos {x : ℚ} {e : Int}
    (hlo : (2 : ℚ) ^ (e - 1) ≤ x) (hhi : x < (2 : ℚ) ^ e) : frexpExponent x = e := by
  have hpos : 0 < x := lt_of_lt_of_le (pow2_pos (e - 1)) hlo
  apply frexpExponent_unique
  · rw [abs_of_pos hpos]
    exact hlo
  · rw [abs_of_pos hpos]
    exact hhi

theorem frexpExponent_one : frexpExponent 1 = 1 :=
  frexpExponent_eq_of_pos (by norm_num) (by norm_num)

theorem frexpExponent_thousand : frexpExponent 1000 = 10 :=
  frexpExponent_eq_of_pos (by norm_num) (by norm_num)

theorem frexpExponent_thousandth : frexpExponent (1 / 1000) = -9 :=
  frexpExponent_eq_of_pos (by norm_num) (by norm_num)

/-- The binary64 number nearest to the decimal `0.001` is `4611686018427388 / 2^62`. -/
theorem frexpExponent_thousandth_binary64 :
    frexpExponent (4611686018427388 / 2 ^ 62) = -9 :=
  frexpExponent_eq_of_pos (by norm_num) (by norm_num)

theorem frexpExponent_two_pow_neg_thirty : frexpExponent (1 / 2 ^ 30) = -29 :=
  frexpExponent_eq_of_pos (by norm_num) (by norm_num)

/-- The first line written by `calibrate` is never the warning line. -/
theorem quantaLine_ne_warning (s : String) :
    "Quanta bits per min edge: " ++ s ≠ insufficientQuantaBitsWarning := by
  intro h
  have h2 := congrArg String.data h
  rw [String.data_append] at h2
  have h3 := congrArg List.head? h2
  simp [insufficientQuantaBitsWarning] at h3

/-- The warning line is written exactly when `quantaBitsPerMinEdge > -10`. -/
theorem warning_mem_calibrateOutput_iff (B : Int) (M m : ℚ) :
    insufficientQuantaBitsWarning ∈ calibrateOutput B M m
      ↔ quantaBitsPerMinEdge B M m > -10 := by
  unfold calibrateOutput
  by_cases h : quantaBitsPerMinEdge B M m > -10
  · simp [h]
  · simp only [h, if_false, List.append_nil, List.mem_singleton, iff_false]
    exact fun heq => quantaLine_ne_warning _ heq.symm

theorem calibrateOutput_eq (B : Int) (M m : ℚ) :
    calibrateOutput B M m
      = ["Quanta bits per min edge: " ++ toString (quantaBitsPerMinEdge B M m)]
        ++ (if quantaBitsPerMinEdge B M m > -10 then [insufficientQuantaBitsWarning]
            else []) := rfl

theorem quantaBitsPerMinEdge_eq (B : Int) (M m : ℚ) :
    quantaBitsPerMinEdge B M m = ((frexpExponent M + 1) - B) - frexpExponent m := rfl

theorem calibrate_fst (B : Int) (M m : ℚ) :
    (calibrate B M m).1 = Quantizer.construct B M m := rfl

theorem calibrate_snd (B : Int) (M m : ℚ) :
    (calibrate B M m).2 = calibrateOutput B M m := rfl

/-- With `B = 30` and both bounds `1`, the exponents are `e = 2` and `e_min = 1`. -/
theorem quantaBitsPerMinEdge_unit_bounds : quantaBitsPerMinEdge 30 1 1 = -29 := by
  rw [quantaBitsPerMinEdge_eq, frexpExponent_one]
  decide

/-- The bracketing of a positive argument by the exponent of `frexp`. -/
theorem frexpExponent_spec_of_pos {m : ℚ} (hm : 0 < m) :
    pow2 (frexpExponent m - 1) ≤ m ∧ m < pow2 (frexpExponent m) := by
  have h := frexpExponent_spec (ne_of_gt hm)
  rw [abs_of_pos hm] at h
  exact h

theorem pow2_nine_mul (k : Int) : (2 : ℚ) ^ (9 : Nat) * pow2 k = pow2 (k + 9) := by
  rw [pow2_add, mul_comm]
  congr 1
  norm_num [pow2]

theorem frexpExponent_two_pow_neg_ten : frexpExponent (1 / 1024) = -9 :=
  frexpExponent_eq_of_pos (by norm_num) (by norm_num)

theorem quantaBitsPerMinEdge_thousand_two_pow_neg_ten :
    quantaBitsPerMinEdge 30 1000 (1 / 1024) = -10 := by
  rw [quantaBitsPerMinEdge_eq, frexpExponent_thousand, frexpExponent_two_pow_neg_ten]
  decide

/-! ## Facts used by the later claims -/

theorem copy_magnify (u : Int) (q : Quantizer) :
    (Quantizer.copy u q).m_magnify = q.m_magnify := rfl

theorem copy_reshrink (u : Int) (q : Quantizer) :
    (Quantizer.copy u q).m_reshrink = q.m_reshrink := rfl

theorem copy_bits (u : Int) (q : Quantizer) :
    (Quantizer.copy u q).m_bitsOfPurturbationRange = u := rfl

theorem reshrink_eq (q : Quantizer) (x : ℚ) :
    q.reshrink x = q.m_reshrink * x := rfl

theorem purturbationQuantum_eq (q : Quantizer) :
    q.purturbationQuantum = q.m_reshrink := rfl

/-- Truncation toward zero is monotone. -/
theorem truncToInt_mono {a b : ℚ} (hab : a ≤ b) : truncToInt a ≤ truncToInt b := by
  rcases le_total 0 a with ha | ha
  · obtain ⟨_, h2, _⟩ := truncToInt_of_nonneg ha
    exact le_truncToInt_of_le (le_trans ha hab) (le_trans h2 hab)
  · rcases le_total 0 b with hb | hb
    · obtain ⟨h1, _, _⟩ := truncToInt_of_nonpos ha
      obtain ⟨h2, _, _⟩ := truncToInt_of_nonneg hb
      exact_mod_cast le_trans h1 h2
    · obtain ⟨_, h2, _⟩ := truncToInt_of_nonpos hb
      exact truncToInt_le_of_le ha (le_trans hab h2)

theorem construct_bits_scenario :
    (Quantizer.construct 30 1000 (1 / 1024)).m_bitsOfPurturbationRange = 10 := by
  rw [construct_bits, frexpExponent_thousand, frexpExponent_two_pow_neg_ten]
  decide

/-- A non-zero rational with denominator one has absolute value at least one. -/
theorem one_le_abs_of_den_eq_one {q : ℚ} (hq : q ≠ 0) (hden : q.den = 1) : 1 ≤ |q| := by
  have hnum : ((q.num : Int) : ℚ) = q := Rat.coe_int_num_of_den_eq_one hden
  have hne : q.num ≠ 0 := Rat.num_ne_zero.mpr hq
  have hone : (1 : Int) ≤ |q.num| := Int.one_le_abs hne
  rw [← hnum]
  exact_mod_cast hone

/-- The `frexp` exponent of a non-zero binary64 number lies between `-1073` and `1024`. -/
theorem isBinary64_exponent_bounds {x : ℚ} (hx : x ≠ 0) (h : isBinary64 x = true) :
    -1073 ≤ frexpExponent x ∧ frexpExponent x ≤ 1024 := by
  unfold isBinary64 at h
  simp only [hx, decide_False, Bool.false_or, Bool.and_eq_true, decide_eq_true_eq] at h
  obtain ⟨hhi, hden⟩ := h
  refine ⟨?_, hhi⟩
  have hp := pow2_pos (max (frexpExponent x - 53) (-1074))
  have hq : x / pow2 (max (frexpExponent x - 53) (-1074)) ≠ 0 :=
    div_ne_zero hx (ne_of_gt hp)
  have hone := one_le_abs_of_den_eq_one hq hden
  rw [abs_div, abs_of_pos hp, le_div_iff₀ hp, one_mul] at hone
  have hlow : pow2 (-1074) ≤ pow2 (max (frexpExponent x - 53) (-1074)) :=
    pow2_le_pow2 (le_max_right _ _)
  obtain ⟨_, hlt⟩ := frexpExponent_spec hx
  have hlt2 := pow2_lt_pow2_iff.mp (lt_of_le_of_lt (le_trans hlow hone) hlt)
  omega

/-- A number `n * 2^(max (e - 53) (-1074))` with `frexp` exponent `e <= 1024` is binary64. -/
theorem isBinary64_of_int_mul {x : ℚ} {e : Int} (n : Int) (he : frexpExponent x = e)
    (hle : e ≤ 1024) (hx : x = (n : ℚ) * pow2 (max (e - 53) (-1074))) :
    isBinary64 x = true := by
  unfold isBinary64
  have hp := pow2_pos (max (e - 53) (-1074))
  have hq : x / pow2 (max (e - 53) (-1074)) = (n : ℚ) := by
    rw [hx, mul_div_assoc, div_self (ne_of_gt hp), mul_one]
  rw [he, hq]
  simp [hle]

theorem isBinary64_thousand : isBinary64 1000 = true := by
  refine isBinary64_of_int_mul (1000 * 2 ^ 43) frexpExponent_thousand (by decide) ?_
  have hmax : max ((10 : Int) - 53) (-1074) = -43 := by decide
  rw [hmax]
  norm_num [pow2]

theorem isBinary64_two_pow_neg_ten : isBinary64 (1 / 1024) = true := by
  refine isBinary64_of_int_mul (2 ^ 52) frexpExponent_two_pow_neg_ten (by decide) ?_
  have hmax : max ((-9 : Int) - 53) (-1074) = -62 := by decide
  rw [hmax]
  norm_num [pow2]

theorem fitsInt_iff (n : Int) : fitsInt n = true ↔ -2147483648 ≤ n ∧ n ≤ 2147483647 := by
  unfold fitsInt INT_MIN INT_MAX
  simp

theorem two_mul_pow2 (k : Int) : 2 * pow2 k = pow2 (k + 1) := by
  rw [pow2_add, mul_comm]
  congr 1
  norm_num [pow2]

theorem four_mul_pow2 (k : Int) : 4 * pow2 k = pow2 (k + 2) := by
  rw [pow2_add, mul_comm]
  congr 1
  norm_num [pow2]

theorem pow2_le_pow2_iff {a b : Int} : pow2 a ≤ pow2 b ↔ a ≤ b := by
  unfold pow2
  exact zpow_le_zpow_iff_right₀ (by norm_num)

theorem construct_magnify_thousand (m : ℚ) :
    (Quantizer.construct 30 1000 m).m_magnify = pow2 19 := by
  rw [construct_magnify, frexpExponent_thousand]
  congr 1

/-- The largest magnitude, magnified, fills the lattice from `2^(B-2)` on. -/
theorem construct_le_maxMagnitude_mul_magnify (B : Int) {M : ℚ} (m : ℚ) (hM : 0 < M) :
    pow2 (B - 2) ≤ M * (Quantizer.construct B M m).m_magnify := by
  obtain ⟨h1, _⟩ := frexpExponent_spec_of_pos hM
  rw [construct_magnify]
  have hsplit : pow2 (B - 2)
      = pow2 (frexpExponent M - 1) * pow2 (B - (frexpExponent M + 1)) := by
    rw [← pow2_add]
    congr 1
    ring
  rw [hsplit]
  exact mul_le_mul_of_nonneg_right h1 (le_of_lt (pow2_pos _))

/-- Scaling a positive number by `2^k` adds `k` to its `frexp` exponent. -/
theorem frexpExponent_pow2_mul (k : Int) {x : ℚ} (hx : 0 < x) :
    frexpExponent (pow2 k * x) = frexpExponent x + k := by
  obtain ⟨hlo, hhi⟩ := frexpExponent_spec_of_pos hx
  have hk := pow2_pos k
  have hpos : 0 < pow2 k * x := mul_pos hk hx
  apply frexpExponent_unique
  · rw [abs_of_pos hpos]
    have hsplit : pow2 (frexpExponent x + k - 1) = pow2 k * pow2 (frexpExponent x - 1) := by
      rw [← pow2_add]
      congr 1
      ring
    rw [hsplit]
    exact mul_le_mul_of_nonneg_left hlo (le_of_lt hk)
  · rw [abs_of_pos hpos]
    have hsplit : pow2 (frexpExponent x + k) = pow2 k * pow2 (frexpExponent x) := by
      rw [← pow2_add]
      congr 1
      ring
    rw [hsplit]
    exact mul_lt_mul_of_pos_left hhi hk

theorem quantaBitsPerMinEdge_pow2_mul (B k : Int) {M m : ℚ} (hM : 0 < M) (hm : 0 < m) :
    quantaBitsPerMinEdge B (pow2 k * M) (pow2 k * m) = quantaBitsPerMinEdge B M m := by
  rw [quantaBitsPerMinEdge_eq, quantaBitsPerMinEdge_eq, frexpExponent_pow2_mul k hM,
    frexpExponent_pow2_mul k hm]
  ring

theorem pow2_thirty_one : pow2 31 = 2147483648 := by
  norm_num [pow2]

theorem pow2_eq (k : Int) : pow2 k = (2 : ℚ) ^ k := rfl

theorem pow2_sub (a b : Int) : pow2 (a - b) = pow2 a / pow2 b := by
  unfold pow2
  exact zpow_sub₀ (by norm_num) a b

/-! ## Facts about binary64 rounding -/

theorem roundNearestEven_intCast (n : Int) : Binary64.roundNearestEven (n : ℚ) = n := by
  unfold Binary64.roundNearestEven
  simp

/-- Rounding to the nearest integer moves a number by at most one half. -/
theorem abs_roundNearestEven_sub_le (t : ℚ) :
    |((Binary64.roundNearestEven t : Int) : ℚ) - t| ≤ 1 / 2 := by
  have h1 := Int.floor_le t
  have h2 := Int.lt_floor_add_one t
  unfold Binary64.roundNearestEven
  rw [abs_le]
  split_ifs with ha hb hc
  · constructor <;> linarith
  · push_cast
    constructor <;> linarith
  · constructor <;> linarith
  · push_cast
    constructor <;> linarith

theorem frexpExponent_le_of_abs_lt {y : ℚ} {c : Int} (hy : y ≠ 0) (h : |y| < pow2 c) :
    frexpExponent y ≤ c := by
  obtain ⟨h1, _⟩ := frexpExponent_spec hy
  have h2 := pow2_lt_pow2_iff.mp (lt_of_le_of_lt h1 h)
  omega

theorem lt_frexpExponent_of_le_abs {y : ℚ} {c : Int} (h : pow2 c ≤ |y|) :
    c < frexpExponent y := by
  have hy : y ≠ 0 := abs_pos.mp (lt_of_lt_of_le (pow2_pos c) h)
  obtain ⟨_, h2⟩ := frexpExponent_spec hy
  exact pow2_lt_pow2_iff.mp (lt_of_le_of_lt h h2)

/-- Scaling a non-zero number by `2^j` adds `j` to its `frexp` exponent. -/
theorem frexpExponent_mul_pow2 (j : Int) {x : ℚ} (hx : x ≠ 0) :
    frexpExponent (x * pow2 j) = frexpExponent x + j := by
  obtain ⟨hlo, hhi⟩ := frexpExponent_spec hx
  have hj := pow2_pos j
  apply frexpExponent_unique
  · rw [abs_mul, abs_of_pos hj]
    have hsplit : pow2 (frexpExponent x + j - 1) = pow2 (frexpExponent x - 1) * pow2 j := by
      rw [← pow2_add]
      congr 1
      ring
    rw [hsplit]
    exact mul_le_mul_of_nonneg_right hlo (le_of_lt hj)
  · rw [abs_mul, abs_of_pos hj, pow2_add]
    exact mul_lt_mul_of_pos_right hhi hj

/-- A power of two with a non-negative exponent is an integer. -/
theorem pow2_eq_intCast {d : Int} (hd : 0 ≤ d) :
    pow2 d = (((2 : Int) ^ d.toNat : Int) : ℚ) := by
  obtain ⟨k, rfl⟩ := Int.eq_ofNat_of_zero_le hd
  unfold pow2
  simp [zpow_natCast]

theorem isBinary64_iff_of_ne_zero {x : ℚ} (hx : x ≠ 0) :
    isBinary64 x = true
      ↔ frexpExponent x ≤ 1024
        ∧ (x / pow2 (max (frexpExponent x - 53) (-1074))).den = 1 := by
  unfold isBinary64
  simp only [hx, decide_False, Bool.false_or, Bool.and_eq_true, decide_eq_true_eq]

theorem isBinary64_zero : isBinary64 0 = true := by
  unfold isBinary64
  simp

/-- A non-zero binary64 number is an integer multiple of its quantum. -/
theorem exists_int_of_isBinary64 {x : ℚ} (hx : x ≠ 0) (h : isBinary64 x = true) :
    ∃ n : Int, x = (n : ℚ) * pow2 (max (frexpExponent x - 53) (-1074)) := by
  obtain ⟨_, hden⟩ := (isBinary64_iff_of_ne_zero hx).mp h
  have hp := pow2_pos (max (frexpExponent x - 53) (-1074))
  refine ⟨(x / pow2 (max (frexpExponent x - 53) (-1074))).num, ?_⟩
  rw [Rat.coe_int_num_of_den_eq_one hden, div_mul_cancel₀ _ (ne_of_gt hp)]

/-- An integer multiple of `2^p` is binary64 when `p` is at least its quantum exponent and
its `frexp` exponent is at most `1024`. -/
theorem isBinary64_of_int_mul_pow2 {y : ℚ} (n p : Int) (hy : y = (n : ℚ) * pow2 p)
    (hq : max (frexpExponent y - 53) (-1074) ≤ p) (he : frexpExponent y ≤ 1024) :
    isBinary64 y = true := by
  by_cases h0 : y = 0
  · rw [h0]
    exact isBinary64_zero
  · rw [isBinary64_iff_of_ne_zero h0]
    refine ⟨he, ?_⟩
    have hp := pow2_pos (max (frexpExponent y - 53) (-1074))
    have hd : 0 ≤ p - max (frexpExponent y - 53) (-1074) := by omega
    have hquot : y / pow2 (max (frexpExponent y - 53) (-1074))
        = (((n * (2 : Int) ^ (p - max (frexpExponent y - 53) (-1074)).toNat : Int)) : ℚ) := by
      rw [div_eq_iff (ne_of_gt hp)]
      push_cast
      rw [mul_assoc]
      have h2 := pow2_eq_intCast hd
      push_cast at h2
      rw [← h2, ← pow2_add]
      have hexp : p - max (frexpExponent y - 53) (-1074) + max (frexpExponent y - 53) (-1074)
          = p := by ring
      rw [hexp]
      exact hy
    rw [hquot]
    exact Rat.den_intCast _

/-- A binary64 number is its own rounding. -/
theorem roundBinary64_of_isBinary64 {y : ℚ} (h : isBinary64 y = true) :
    Binary64.roundBinary64 y = Binary64.Double.finite y := by
  unfold Binary64.roundBinary64
  by_cases h0 : y = 0
  · rw [if_pos h0, h0]
  · rw [if_neg h0]
    obtain ⟨n, hn⟩ := exists_int_of_isBinary64 h0 h
    obtain ⟨he, _⟩ := (isBinary64_iff_of_ne_zero h0).mp h
    have hp := pow2_pos (max (frexpExponent y - 53) (-1074))
    have hquot : y / pow2 (max (frexpExponent y - 53) (-1074)) = (n : ℚ) := by
      rw [div_eq_iff (ne_of_gt hp)]
      exact hn
    rw [hquot, roundNearestEven_intCast, ← hn]
    obtain ⟨_, hlt⟩ := frexpExponent_spec h0
    have hlt2 : |y| < pow2 1024 := lt_of_lt_of_le hlt (pow2_le_pow2 he)
    rw [if_neg (not_le.mpr hlt2)]

theorem pow2_neg_two : pow2 (-2) = 1 / 4 := by
  norm_num [pow2]

theorem pow2_le_quarter {k : Int} (hk : k ≤ -2) : pow2 k ≤ 1 / 4 := by
  rw [← pow2_neg_two]
  exact pow2_le_pow2 hk

theorem one_le_pow2 {k : Int} (hk : 0 ≤ k) : 1 ≤ pow2 k := by
  rw [← pow2_zero]
  exact pow2_le_pow2 hk

theorem truncToInt_eq_zero {d : ℚ} (h : |d| < 1) : truncToInt d = 0 := by
  have h1 : |(truncToInt d : ℚ)| < 1 := lt_of_le_of_lt (abs_truncToInt_le d) h
  have h2 : |truncToInt d| < 1 := by exact_mod_cast h1
  exact Int.abs_lt_one_iff.mp h2

/-- Below the least normal number the rounded result is finite and below one. -/
theorem roundBinary64_underflow {y : ℚ} (hy : |y| < pow2 (-1022)) :
    ∃ v : ℚ, Binary64.roundBinary64 y = Binary64.Double.finite v ∧ |v| < 1 := by
  by_cases h0 : y = 0
  · refine ⟨0, ?_, by norm_num⟩
    unfold Binary64.roundBinary64
    rw [if_pos h0]
  · have he : frexpExponent y ≤ -1022 := frexpExponent_le_of_abs_lt h0 hy
    have hq : max (frexpExponent y - 53) (-1074) = -1074 := max_eq_right (by omega)
    have hp := pow2_pos (-1074)
    have hr := abs_roundNearestEven_sub_le (y / pow2 (-1074))
    have hbound : |((Binary64.roundNearestEven (y / pow2 (-1074)) : Int) : ℚ) * pow2 (-1074)|
        < 1 := by
      have hsplit : ((Binary64.roundNearestEven (y / pow2 (-1074)) : Int) : ℚ) * pow2 (-1074)
          = (((Binary64.roundNearestEven (y / pow2 (-1074)) : Int) : ℚ) - y / pow2 (-1074))
              * pow2 (-1074) + y := by
        rw [sub_mul, div_mul_cancel₀ _ (ne_of_gt hp)]
        ring
      rw [hsplit]
      have h1 : |(((Binary64.roundNearestEven (y / pow2 (-1074)) : Int) : ℚ)
          - y / pow2 (-1074)) * pow2 (-1074)| ≤ 1 / 2 * pow2 (-1074) := by
        rw [abs_mul, abs_of_pos hp]
        exact mul_le_mul_of_nonneg_right hr (le_of_lt hp)
      have h2 : pow2 (-1074) ≤ 1 / 4 := pow2_le_quarter (by decide)
      have h3 : pow2 (-1022) ≤ 1 / 4 := pow2_le_quarter (by decide)
      calc |(((Binary64.roundNearestEven (y / pow2 (-1074)) : Int) : ℚ)
              - y / pow2 (-1074)) * pow2 (-1074) + y|
          ≤ |(((Binary64.roundNearestEven (y / pow2 (-1074)) : Int) : ℚ)
              - y / pow2 (-1074)) * pow2 (-1074)| + |y| := abs_add _ _
        _ < 1 := by linarith
    refine ⟨((Binary64.roundNearestEven (y / pow2 (-1074)) : Int) : ℚ) * pow2 (-1074), ?_,
      hbound⟩
    unfold Binary64.roundBinary64
    rw [if_neg h0, hq]
    have hbig : ¬ (pow2 1024
        ≤ |((Binary64.roundNearestEven (y / pow2 (-1074)) : Int) : ℚ) * pow2 (-1074)|) := by
      have h1024 : 1 ≤ pow2 1024 := one_le_pow2 (by decide)
      intro hcon
      linarith
    rw [if_neg hbig]

/-- A binary64 number scaled by a power of two is binary64 when the result lies in the
normal range. -/
theorem isBinary64_mul_pow2 {x : ℚ} (hx : isBinary64 x = true) (j : Int)
    (hlo : pow2 (-1022) ≤ |x * pow2 j|) (hhi : |x * pow2 j| < pow2 1024) :
    isBinary64 (x * pow2 j) = true := by
  have hy0 : x * pow2 j ≠ 0 := abs_pos.mp (lt_of_lt_of_le (pow2_pos _) hlo)
  have hx0 : x ≠ 0 := left_ne_zero_of_mul hy0
  obtain ⟨n, hn⟩ := exists_int_of_isBinary64 hx0 hx
  have he := frexpExponent_mul_pow2 j hx0
  have hlow := lt_frexpExponent_of_le_abs hlo
  have hup := frexpExponent_le_of_abs_lt hy0 hhi
  refine isBinary64_of_int_mul_pow2 n (max (frexpExponent x - 53) (-1074) + j) ?_ ?_ hup
  · rw [pow2_add, ← mul_assoc, ← hn]
  · rw [he] at hlow ⊢
    omega

/-- An integer below `2^53` in magnitude times a representable power of two is binary64
when the product is below `2^1024` in magnitude. -/
theorem isBinary64_intCast_mul_pow2 (n i : Int) (hi : -1074 ≤ i)
    (hn : |(n : ℚ)| < pow2 53) (hhi : |(n : ℚ) * pow2 i| < pow2 1024) :
    isBinary64 ((n : ℚ) * pow2 i) = true := by
  by_cases hy0 : (n : ℚ) * pow2 i = 0
  · rw [hy0]
    exact isBinary64_zero
  · have hn0 : (n : ℚ) ≠ 0 := left_ne_zero_of_mul hy0
    have he := frexpExponent_mul_pow2 i hn0
    have hn53 := frexpExponent_le_of_abs_lt hn0 hn
    have hup := frexpExponent_le_of_abs_lt hy0 hhi
    refine isBinary64_of_int_mul_pow2 n i rfl ?_ hup
    rw [he]
    omega

/-- A binary64 number times a power of two, rounded to binary64: the result is finite and
truncates to the same integer as the exact product; it is the exact product unless that
lies below the normal range. -/
theorem roundBinary64_mul_pow2 {x : ℚ} (hx : isBinary64 x = true) (j : Int)
    (hhi : |x * pow2 j| < pow2 1024) :
    ∃ v : ℚ, Binary64.roundBinary64 (x * pow2 j) = Binary64.Double.finite v
      ∧ truncToInt v = truncToInt (x * pow2 j)
      ∧ (v = x * pow2 j ∨ |v| < 1) := by
  rcases lt_or_le |x * pow2 j| (pow2 (-1022)) with hsmall | hnormal
  · obtain ⟨v, hv, hv1⟩ := roundBinary64_underflow hsmall
    have hy1 : |x * pow2 j| < 1 := by
      have h3 : pow2 (-1022) ≤ 1 / 4 := pow2_le_quarter (by decide)
      linarith
    exact ⟨v, hv, by rw [truncToInt_eq_zero hv1, truncToInt_eq_zero hy1], Or.inr hv1⟩
  · exact ⟨x * pow2 j, roundBinary64_of_isBinary64 (isBinary64_mul_pow2 hx j hnormal hhi),
      rfl, Or.inl rfl⟩

/-! ## Facts about the binary64 class -/

theorem mul_finite_finite (a b : ℚ) :
    (Binary64.Double.finite a).mul (Binary64.Double.finite b)
      = Binary64.roundBinary64 (a * b) := rfl

theorem mul_finite_posInf_of_pos {a : ℚ} (ha : 0 < a) :
    (Binary64.Double.finite a).mul Binary64.Double.posInf = Binary64.Double.posInf := by
  show (if a = 0 then Binary64.Double.nan
    else if 0 < a then Binary64.Double.posInf else Binary64.Double.negInf) = _
  rw [if_neg (ne_of_gt ha), if_pos ha]

theorem mul_zero_posInf :
    (Binary64.Double.finite 0).mul Binary64.Double.posInf = Binary64.Double.nan := by
  show (if (0 : ℚ) = 0 then Binary64.Double.nan
    else if (0 : ℚ) < 0 then Binary64.Double.posInf else Binary64.Double.negInf) = _
  rw [if_pos rfl]

theorem mul_posInf_finite_of_pos {b : ℚ} (hb : 0 < b) :
    Binary64.Double.posInf.mul (Binary64.Double.finite b) = Binary64.Double.posInf := by
  show (if b = 0 then Binary64.Double.nan
    else if 0 < b then Binary64.Double.posInf else Binary64.Double.negInf) = _
  rw [if_neg (ne_of_gt hb), if_pos hb]

theorem toInt_finite {d : ℚ} (h : fitsInt (truncToInt d) = true) :
    (Binary64.Double.finite d).toInt = some (truncToInt d) := by
  show (if fitsInt (truncToInt d) = true then some (truncToInt d) else none) = _
  rw [if_pos h]

theorem toInt_posInf : Binary64.Double.posInf.toInt = none := rfl

theorem toInt_nan : Binary64.Double.nan.toInt = none := rfl

theorem powTwo_of_range {k : Int} (h1 : -1074 ≤ k) (h2 : k ≤ 1023) :
    Binary64.powTwo k = Binary64.Double.finite (pow2 k) := by
  unfold Binary64.powTwo
  rw [if_neg (by omega), if_neg (by omega)]

theorem powTwo_of_ge {k : Int} (h : 1024 ≤ k) : Binary64.powTwo k = Binary64.Double.posInf := by
  unfold Binary64.powTwo
  rw [if_pos h]

theorem powTwo_of_le {k : Int} (h : k ≤ -1075) :
    Binary64.powTwo k = Binary64.Double.finite 0 := by
  unfold Binary64.powTwo
  rw [if_neg (by omega), if_pos h]

theorem binary64_construct_magnify (B : Int) (M m : ℚ) :
    (Binary64.Quantizer.construct B M m).m_magnify
      = Binary64.powTwo (B - (frexpExponent M + 1)) := rfl

theorem binary64_construct_reshrink (B : Int) (M m : ℚ) :
    (Binary64.Quantizer.construct B M m).m_reshrink
      = Binary64.powTwo ((frexpExponent M + 1) - B) := rfl

theorem binary64_construct_bits (B : Int) (M m : ℚ) :
    (Binary64.Quantizer.construct B M m).m_bitsOfPurturbationRange
      = |quantaBitsPerMinEdge B M m| := rfl

theorem binary64_calibrate_fst (B : Int) (M m : ℚ) :
    (Binary64.calibrate B M m).1 = Binary64.Quantizer.construct B M m := rfl

theorem binary64_calibrate_snd (B : Int) (M m : ℚ) :
    (Binary64.calibrate B M m).2 = calibrateOutput B M m := rfl

theorem binary64_bitsOfPurturbationRange_eq (q : Binary64.Quantizer) :
    q.bitsOfPurturbationRange = q.m_bitsOfPurturbationRange := rfl

theorem binary64_quantize2int_eq (q : Binary64.Quantizer) (d : Binary64.Double) :
    q.quantize2int d = (d.mul q.m_magnify).toInt := rfl

theorem binary64_quantizedInt2double_eq (q : Binary64.Quantizer) (n : Int) :
    q.quantizedInt2double n = q.m_reshrink.mul (Binary64.Double.ofInt n) := rfl

theorem binary64_quantize_of_some {q : Binary64.Quantizer} {d : Binary64.Double} {n : Int}
    (h : q.quantize2int d = some n) :
    q.quantize d = some (q.quantizedInt2double n) := by
  rw [binary64_quantize2int_eq] at h
  unfold Binary64.Quantizer.quantize
  rw [h]
  rfl

theorem binary64_quantize_of_none {q : Binary64.Quantizer} {d : Binary64.Double}
    (h : q.quantize2int d = none) : q.quantize d = none := by
  rw [binary64_quantize2int_eq] at h
  unfold Binary64.Quantizer.quantize
  rw [h]

theorem fitsInt_of_abs_lt {n : Int} (h : |(n : ℚ)| < pow2 31) : fitsInt n = true := by
  rw [pow2_thirty_one] at h
  obtain ⟨h1, h2⟩ := abs_lt.mp h
  have h1z : (-2147483648 : Int) < n := by exact_mod_cast h1
  have h2z : n < (2147483648 : Int) := by exact_mod_cast h2
  rw [fitsInt_iff]
  constructor <;> omega

/-- With a finite power of two as `m_magnify`, `quantize2int` of a binary64 number whose
magnified value is below `2^31` is the truncation of the exact product. -/
theorem binary64_quantize2int_of_finite {q : Binary64.Quantizer} {j : Int} {x : ℚ}
    (hq : q.m_magnify = Binary64.Double.finite (pow2 j)) (hx : isBinary64 x = true)
    (hlt : |x * pow2 j| < pow2 31) :
    q.quantize2int (Binary64.Double.finite x) = some (truncToInt (x * pow2 j)) := by
  have hhi : |x * pow2 j| < pow2 1024 := lt_of_lt_of_le hlt (pow2_le_pow2 (by decide))
  obtain ⟨v, hv, htr, _⟩ := roundBinary64_mul_pow2 hx j hhi
  have hfit : fitsInt (truncToInt v) = true := by
    rw [htr]
    exact fitsInt_of_abs_lt (lt_of_le_of_lt (abs_truncToInt_le _) hlt)
  rw [binary64_quantize2int_eq, hq, mul_finite_finite, hv, toInt_finite hfit, htr]

/-- With a finite representable power of two as `m_reshrink`, `quantizedInt2double` of an
integer below `2^53` is the exact product when that is below `2^1024` in magnitude. -/
theorem binary64_quantizedInt2double_of_finite {q : Binary64.Quantizer} {i : Int} (n : Int)
    (hq : q.m_reshrink = Binary64.Double.finite (pow2 i)) (hi : -1074 ≤ i)
    (hn : |(n : ℚ)| < pow2 53) (hhi : |(n : ℚ) * pow2 i| < pow2 1024) :
    q.quantizedInt2double n = Binary64.Double.finite (pow2 i * (n : ℚ)) := by
  have hb := isBinary64_intCast_mul_pow2 n i hi hn hhi
  rw [mul_comm] at hb
  rw [binary64_quantizedInt2double_eq, hq]
  show Binary64.roundBinary64 (pow2 i * (n : ℚ)) = _
  exact roundBinary64_of_isBinary64 hb

/-! ## Exact lattice arithmetic -/

/-- Exact lattice arithmetic: `quantize` is idempotent. -/
theorem quantize_idempotent_exact (B : Int) (maxMagnitude minEdgeLength x : ℚ)
    (hmax : 0 < maxMagnitude) (hmin : 0 < minEdgeLength) (hx : |x| ≤ maxMagnitude) :
    (Quantizer.construct B maxMagnitude minEdgeLength).quantize
        ((Quantizer.construct B maxMagnitude minEdgeLength).quantize x)
      = (Quantizer.construct B maxMagnitude minEdgeLength).quantize x := by
  unfold Quantizer.quantize
  rw [construct_reshrink_mul_int_mul_magnify, truncToInt_intCast]

/-- Exact lattice arithmetic: dequantizing the lattice integer of `x` moves `x` by at most
`reshrink`. -/
theorem round_trip_bound_exact (B : Int) (maxMagnitude minEdgeLength x : ℚ)
    (hmax : 0 < maxMagnitude) (hmin : 0 < minEdgeLength) (hx : |x| ≤ maxMagnitude) :
    |(Quantizer.construct B maxMagnitude minEdgeLength).quantizedInt2double
        ((Quantizer.construct B maxMagnitude minEdgeLength).quantize2int x) - x|
      ≤ (Quantizer.construct B maxMagnitude minEdgeLength).m_reshrink := by
  unfold Quantizer.quantizedInt2double Quantizer.quantize2int
  have hr := construct_reshrink_pos B maxMagnitude minEdgeLength
  have hx2 := construct_reshrink_mul_magnified B maxMagnitude minEdgeLength x
  have hd := abs_truncToInt_sub_lt
    (x * (Quantizer.construct B maxMagnitude minEdgeLength).m_magnify)
  have heq : (Quantizer.construct B maxMagnitude minEdgeLength).m_reshrink
        * ((truncToInt (x * (Quantizer.construct B maxMagnitude minEdgeLength).m_magnify)
            : Int) : ℚ) - x
      = (Quantizer.construct B maxMagnitude minEdgeLength).m_reshrink
        * (((truncToInt (x * (Quantizer.construct B maxMagnitude minEdgeLength).m_magnify)
            : Int) : ℚ)
          - x * (Quantizer.construct B maxMagnitude minEdgeLength).m_magnify) := by
    rw [mul_sub, hx2]
  rw [heq, abs_mul, abs_of_pos hr]
  calc (Quantizer.construct B maxMagnitude minEdgeLength).m_reshrink
        * |((truncToInt (x * (Quantizer.construct B maxMagnitude minEdgeLength).m_magnify)
            : Int) : ℚ)
          - x * (Quantizer.construct B maxMagnitude minEdgeLength).m_magnify|
      ≤ (Quantizer.construct B maxMagnitude minEdgeLength).m_reshrink * 1 :=
        mul_le_mul_of_nonneg_left (le_of_lt hd) (le_of_lt hr)
    _ = (Quantizer.construct B maxMagnitude minEdgeLength).m_reshrink := mul_one _

/-- Exact lattice arithmetic: `quantize x` is an integer multiple of `reshrink` between `0`
and `x`, maximal in absolute value among such multiples, and equal to `x` exactly on
multiples of `reshrink`. -/
theorem quantize_snaps_toward_zero_exact (B : Int) (maxMagnitude minEdgeLength x : ℚ)
    (hmax : 0 < maxMagnitude) (hmin : 0 < minEdgeLength) (hx : |x| ≤ maxMagnitude) :
    (∃ k : Int, (Quantizer.construct B maxMagnitude minEdgeLength).quantize x
        = (k : ℚ) * (Quantizer.construct B maxMagnitude minEdgeLength).m_reshrink)
    ∧ (0 ≤ x → 0 ≤ (Quantizer.construct B maxMagnitude minEdgeLength).quantize x
        ∧ (Quantizer.construct B maxMagnitude minEdgeLength).quantize x ≤ x)
    ∧ (x ≤ 0 → x ≤ (Quantizer.construct B maxMagnitude minEdgeLength).quantize x
        ∧ (Quantizer.construct B maxMagnitude minEdgeLength).quantize x ≤ 0)
    ∧ (∀ j : Int,
        (0 ≤ x → 0 ≤ (j : ℚ) * (Quantizer.construct B maxMagnitude minEdgeLength).m_reshrink
          ∧ (j : ℚ) * (Quantizer.construct B maxMagnitude minEdgeLength).m_reshrink ≤ x) →
        (x ≤ 0 → x ≤ (j : ℚ) * (Quantizer.construct B maxMagnitude minEdgeLength).m_reshrink
          ∧ (j : ℚ) * (Quantizer.construct B maxMagnitude minEdgeLength).m_reshrink ≤ 0) →
        |(j : ℚ) * (Quantizer.construct B maxMagnitude minEdgeLength).m_reshrink|
          ≤ |(Quantizer.construct B maxMagnitude minEdgeLength).quantize x|)
    ∧ ((Quantizer.construct B maxMagnitude minEdgeLength).quantize x = x
        ↔ ∃ j : Int, x = (j : ℚ) * (Quantizer.construct B maxMagnitude minEdgeLength).m_reshrink) := by
  have hr := construct_reshrink_pos B maxMagnitude minEdgeLength
  have hg := construct_magnify_pos B maxMagnitude minEdgeLength
  have hxr := construct_reshrink_mul_magnified B maxMagnitude minEdgeLength x
  unfold Quantizer.quantize
  generalize hq : Quantizer.construct B maxMagnitude minEdgeLength = q at *
  generalize ht : truncToInt (x * q.m_magnify) = t
  -- the two sign cases of the bracketing
  have hpos : 0 ≤ x → 0 ≤ q.m_reshrink * (t : ℚ) ∧ q.m_reshrink * (t : ℚ) ≤ x := by
    intro h0
    obtain ⟨h1, h2, _⟩ := truncToInt_of_nonneg (mul_nonneg h0 (le_of_lt hg))
    rw [ht] at h1 h2
    refine ⟨mul_nonneg (le_of_lt hr) h1, ?_⟩
    calc q.m_reshrink * (t : ℚ) ≤ q.m_reshrink * (x * q.m_magnify) :=
          mul_le_mul_of_nonneg_left h2 (le_of_lt hr)
      _ = x := hxr
  have hneg : x ≤ 0 → x ≤ q.m_reshrink * (t : ℚ) ∧ q.m_reshrink * (t : ℚ) ≤ 0 := by
    intro h0
    obtain ⟨h1, h2, _⟩ :=
      truncToInt_of_nonpos (mul_nonpos_of_nonpos_of_nonneg h0 (le_of_lt hg))
    rw [ht] at h1 h2
    refine ⟨?_, mul_nonpos_of_nonneg_of_nonpos (le_of_lt hr) h1⟩
    calc x = q.m_reshrink * (x * q.m_magnify) := hxr.symm
      _ ≤ q.m_reshrink * (t : ℚ) := mul_le_mul_of_nonneg_left h2 (le_of_lt hr)
  refine ⟨⟨t, mul_comm _ _⟩, hpos, hneg, ?_, ?_⟩
  · intro j hj1 hj2
    have hjm : (j : ℚ) * q.m_reshrink * q.m_magnify = (j : ℚ) := by
      have := construct_reshrink_mul_int_mul_magnify B maxMagnitude minEdgeLength j
      rw [hq] at this
      rw [mul_comm (j : ℚ)]
      exact this
    rcases le_total 0 x with h0 | h0
    · obtain ⟨ha, hb⟩ := hj1 h0
      obtain ⟨hc, _⟩ := hpos h0
      rw [abs_of_nonneg ha, abs_of_nonneg hc]
      have hjle : (j : ℚ) ≤ x * q.m_magnify := by
        rw [← hjm]
        exact mul_le_mul_of_nonneg_right hb (le_of_lt hg)
      have hjt : j ≤ t := by
        rw [← ht]
        exact le_truncToInt_of_le (mul_nonneg h0 (le_of_lt hg)) hjle
      rw [mul_comm (j : ℚ)]
      exact mul_le_mul_of_nonneg_left (by exact_mod_cast hjt) (le_of_lt hr)
    · obtain ⟨ha, hb⟩ := hj2 h0
      obtain ⟨_, hc⟩ := hneg h0
      rw [abs_of_nonpos hb, abs_of_nonpos hc]
      have hjle : x * q.m_magnify ≤ (j : ℚ) := by
        rw [← hjm]
        exact mul_le_mul_of_nonneg_right ha (le_of_lt hg)
      have hjt : t ≤ j := by
        rw [← ht]
        exact truncToInt_le_of_le (mul_nonpos_of_nonpos_of_nonneg h0 (le_of_lt hg)) hjle
      rw [mul_comm (j : ℚ), neg_le_neg_iff]
      exact mul_le_mul_of_nonneg_left (by exact_mod_cast hjt) (le_of_lt hr)
  · constructor
    · intro h
      exact ⟨t, by rw [mul_comm, h]⟩
    · rintro ⟨j, hj⟩
      have hjm : x * q.m_magnify = (j : ℚ) := by
        have := (construct_eq_int_mul_reshrink_iff B maxMagnitude minEdgeLength x j)
        rw [hq] at this
        exact this.mp hj
      have htj : t = j := by
        rw [← ht, hjm]
        exact truncToInt_intCast j
      rw [htj, mul_comm]
      exact hj.symm

/-- Exact lattice arithmetic: the members set by `calibrate`, the warning condition, and its
reading as `minEdgeLength < 2^9 * reshrink`. -/
theorem coarse_grid_warning_condition_exact (B : Int) (maxMagnitude minEdgeLength : ℚ)
    (hmax : 0 < maxMagnitude) (hmin : 0 < minEdgeLength) :
    (calibrate B maxMagnitude minEdgeLength).1.m_magnify
        = (2 : ℚ) ^ (B - (frexpExponent maxMagnitude + 1))
    ∧ (calibrate B maxMagnitude minEdgeLength).1.m_reshrink
        = (2 : ℚ) ^ ((frexpExponent maxMagnitude + 1) - B)
    ∧ (calibrate B maxMagnitude minEdgeLength).1.bitsOfPurturbationRange
        = |quantaBitsPerMinEdge B maxMagnitude minEdgeLength|
    ∧ quantaBitsPerMinEdge B maxMagnitude minEdgeLength
        = ((frexpExponent maxMagnitude + 1) - B) - frexpExponent minEdgeLength
    ∧ (insufficientQuantaBitsWarning ∈ (calibrate B maxMagnitude minEdgeLength).2
        ↔ quantaBitsPerMinEdge B maxMagnitude minEdgeLength > -10)
    ∧ (quantaBitsPerMinEdge B maxMagnitude minEdgeLength > -10
        ↔ minEdgeLength
            < (2 : ℚ) ^ (9 : Nat) * (calibrate B maxMagnitude minEdgeLength).1.m_reshrink) := by
  refine ⟨rfl, rfl, rfl, rfl, ?_, ?_⟩
  · rw [calibrate_snd]
    exact warning_mem_calibrateOutput_iff B maxMagnitude minEdgeLength
  · obtain ⟨hlo, hhi⟩ := frexpExponent_spec_of_pos hmin
    rw [calibrate_fst, construct_reshrink, pow2_nine_mul, quantaBitsPerMinEdge_eq]
    constructor
    · intro h
      exact lt_of_lt_of_le hhi (pow2_le_pow2 (by omega))
    · intro h
      have hlt := pow2_lt_pow2_iff.mp (lt_of_le_of_lt hlo h)
      omega

/-- Exact lattice arithmetic: quantizing a dequantized lattice integer returns it. -/
theorem integer_round_trip_exact (B : Int) (maxMagnitude minEdgeLength : ℚ) (n : Int)
    (hmax : 0 < maxMagnitude) (hmin : 0 < minEdgeLength) (hn : |(n : ℚ)| < (2 : ℚ) ^ B) :
    (Quantizer.construct B maxMagnitude minEdgeLength).quantize2int
        ((Quantizer.construct B maxMagnitude minEdgeLength).quantizedInt2double n) = n := by
  rw [quantize2int_eq, quantizedInt2double_eq, construct_reshrink_mul_int_mul_magnify,
    truncToInt_intCast]

/-- Exact lattice arithmetic: `quantize2int` and `quantize` are monotone. -/
theorem order_preservation_exact (B : Int) (maxMagnitude minEdgeLength x y : ℚ)
    (hmax : 0 < maxMagnitude) (hmin : 0 < minEdgeLength)
    (hx : |x| ≤ maxMagnitude) (hy : |y| ≤ maxMagnitude) (hxy : x ≤ y) :
    (Quantizer.construct B maxMagnitude minEdgeLength).quantize2int x
        ≤ (Quantizer.construct B maxMagnitude minEdgeLength).quantize2int y
    ∧ (Quantizer.construct B maxMagnitude minEdgeLength).quantize x
        ≤ (Quantizer.construct B maxMagnitude minEdgeLength).quantize y := by
  have hg := construct_magnify_pos B maxMagnitude minEdgeLength
  have hr := construct_reshrink_pos B maxMagnitude minEdgeLength
  have ht : truncToInt (x * (Quantizer.construct B maxMagnitude minEdgeLength).m_magnify)
      ≤ truncToInt (y * (Quantizer.construct B maxMagnitude minEdgeLength).m_magnify) :=
    truncToInt_mono (mul_le_mul_of_nonneg_right hxy (le_of_lt hg))
  refine ⟨?_, ?_⟩
  · rw [quantize2int_eq, quantize2int_eq]
    exact ht
  · rw [quantize_eq, quantize_eq]
    exact mul_le_mul_of_nonneg_left (by exact_mod_cast ht) (le_of_lt hr)

/-- Exact lattice arithmetic: scaling both bounds by `2^k` keeps the bit count and the lines
written, multiplies `reshrink` by `2^k` and divides `magnify` by `2^k`. -/
theorem scale_invariance_exact (B k : Int) (maxMagnitude minEdgeLength : ℚ)
    (hmax : 0 < maxMagnitude) (hmin : 0 < minEdgeLength) :
    (Quantizer.construct B ((2 : ℚ) ^ k * maxMagnitude)
          ((2 : ℚ) ^ k * minEdgeLength)).bitsOfPurturbationRange
        = (Quantizer.construct B maxMagnitude minEdgeLength).bitsOfPurturbationRange
    ∧ (insufficientQuantaBitsWarning
          ∈ (calibrate B ((2 : ℚ) ^ k * maxMagnitude) ((2 : ℚ) ^ k * minEdgeLength)).2
        ↔ insufficientQuantaBitsWarning ∈ (calibrate B maxMagnitude minEdgeLength).2)
    ∧ (calibrate B ((2 : ℚ) ^ k * maxMagnitude) ((2 : ℚ) ^ k * minEdgeLength)).2
        = (calibrate B maxMagnitude minEdgeLength).2
    ∧ (Quantizer.construct B ((2 : ℚ) ^ k * maxMagnitude)
          ((2 : ℚ) ^ k * minEdgeLength)).m_reshrink
        = (2 : ℚ) ^ k * (Quantizer.construct B maxMagnitude minEdgeLength).m_reshrink
    ∧ (Quantizer.construct B ((2 : ℚ) ^ k * maxMagnitude)
          ((2 : ℚ) ^ k * minEdgeLength)).m_magnify
        = (Quantizer.construct B maxMagnitude minEdgeLength).m_magnify / (2 : ℚ) ^ k := by
  rw [← pow2_eq]
  have hq := quantaBitsPerMinEdge_pow2_mul B k hmax hmin
  have hf := frexpExponent_pow2_mul k hmax
  have hout : (calibrate B (pow2 k * maxMagnitude) (pow2 k * minEdgeLength)).2
      = (calibrate B maxMagnitude minEdgeLength).2 := by
    rw [calibrate_snd, calibrate_snd, calibrateOutput_eq, calibrateOutput_eq, hq]
  refine ⟨?_, ?_, hout, ?_, ?_⟩
  · rw [bitsOfPurturbationRange_eq, bitsOfPurturbationRange_eq, construct_bits,
      construct_bits, ← quantaBitsPerMinEdge_eq, ← quantaBitsPerMinEdge_eq, hq]
  · rw [hout]
  · rw [construct_reshrink, construct_reshrink, hf, ← pow2_add]
    congr 1
    ring
  · rw [construct_magnify, construct_magnify, hf, ← pow2_sub]
    congr 1
    ring

/-- Exact lattice arithmetic: the magnified largest magnitude lies in `[2^(B-2), 2^(B-1))`,
and lattice integers of in-range numbers are below `2^(B-1)` in magnitude. -/
theorem lattice_occupancy_exact (B : Int) (maxMagnitude minEdgeLength : ℚ)
    (hmax : 0 < maxMagnitude) :
    ((2 : ℚ) ^ (B - 2)
        ≤ maxMagnitude * (Quantizer.construct B maxMagnitude minEdgeLength).m_magnify
      ∧ maxMagnitude * (Quantizer.construct B maxMagnitude minEdgeLength).m_magnify
        < (2 : ℚ) ^ (B - 1))
    ∧ ∀ x : ℚ, |x| ≤ maxMagnitude →
        |(((Quantizer.construct B maxMagnitude minEdgeLength).quantize2int x : Int) : ℚ)|
            < (2 : ℚ) ^ (B - 1)
        ∧ (B ≤ 32 →
            fitsInt ((Quantizer.construct B maxMagnitude minEdgeLength).quantize2int x)
              = true) := by
  refine ⟨⟨construct_le_maxMagnitude_mul_magnify B minEdgeLength hmax,
    construct_maxMagnitude_mul_magnify_lt B minEdgeLength hmax⟩, ?_⟩
  intro x hx
  have hlt : |(((Quantizer.construct B maxMagnitude minEdgeLength).quantize2int x : Int) : ℚ)|
      < pow2 (B - 1) := by
    rw [quantize2int_eq]
    exact lt_of_le_of_lt (abs_truncToInt_le _)
      (construct_abs_mul_magnify_lt B minEdgeLength hmax hx)
  refine ⟨hlt, ?_⟩
  intro hB
  have h31 : pow2 (B - 1) ≤ 2147483648 := by
    rw [← pow2_thirty_one]
    exact pow2_le_pow2 (by omega)
  obtain ⟨h1, h2⟩ := abs_lt.mp (lt_of_lt_of_le hlt h31)
  have h1z : (-2147483648 : Int)
      < (Quantizer.construct B maxMagnitude minEdgeLength).quantize2int x := by
    exact_mod_cast h1
  have h2z : (Quantizer.construct B maxMagnitude minEdgeLength).quantize2int x
      < (2147483648 : Int) := by
    exact_mod_cast h2
  rw [fitsInt_iff]
  constructor <;> omega

/-! ## The binary64 class on calibrations with finite scale factors -/

/-- For `2^(B-1025) <= maxMagnitude < 2^(B+1022)` the exponents passed to `std::pow` lie
between `-1023` and `1023`. -/
theorem exponent_bounds_of_range {B : Int} {M : ℚ}
    (hlo : (2 : ℚ) ^ (B - 1025) ≤ M) (hhi : M < (2 : ℚ) ^ (B + 1022)) :
    B - 1023 ≤ frexpExponent M + 1 ∧ frexpExponent M + 1 ≤ B + 1023 := by
  have hpos : 0 < M := lt_of_lt_of_le (pow2_pos (B - 1025)) hlo
  have h1 : B - 1025 < frexpExponent M := by
    apply lt_frexpExponent_of_le_abs
    rw [abs_of_pos hpos]
    exact hlo
  have h2 : frexpExponent M ≤ B + 1022 := by
    apply frexpExponent_le_of_abs_lt (ne_of_gt hpos)
    rw [abs_of_pos hpos]
    exact hhi
  omega

theorem binary64_construct_magnify_of_range {B : Int} {M : ℚ} (m : ℚ)
    (hlo : (2 : ℚ) ^ (B - 1025) ≤ M) (hhi : M < (2 : ℚ) ^ (B + 1022)) :
    (Binary64.Quantizer.construct B M m).m_magnify
      = Binary64.Double.finite (pow2 (B - (frexpExponent M + 1))) := by
  obtain ⟨h1, h2⟩ := exponent_bounds_of_range hlo hhi
  rw [binary64_construct_magnify]
  exact powTwo_of_range (by omega) (by omega)

theorem binary64_construct_reshrink_of_range {B : Int} {M : ℚ} (m : ℚ)
    (hlo : (2 : ℚ) ^ (B - 1025) ≤ M) (hhi : M < (2 : ℚ) ^ (B + 1022)) :
    (Binary64.Quantizer.construct B M m).m_reshrink
      = Binary64.Double.finite (pow2 ((frexpExponent M + 1) - B)) := by
  obtain ⟨h1, h2⟩ := exponent_bounds_of_range hlo hhi
  rw [binary64_construct_reshrink]
  exact powTwo_of_range (by omega) (by omega)

theorem abs_lt_pow2_of_isBinary64 {M : ℚ} (hM : isBinary64 M = true) : |M| < pow2 1024 := by
  by_cases h0 : M = 0
  · rw [h0, abs_zero]
    exact pow2_pos 1024
  · obtain ⟨he, _⟩ := (isBinary64_iff_of_ne_zero h0).mp hM
    obtain ⟨_, hlt⟩ := frexpExponent_spec h0
    exact lt_of_lt_of_le hlt (pow2_le_pow2 he)

/-- In exact arithmetic `quantize` does not increase the magnitude. -/
theorem abs_quantize_le_exact (B : Int) (M m x : ℚ) :
    |(Quantizer.construct B M m).quantize x| ≤ |x| := by
  have hr := construct_reshrink_pos B M m
  have hx := construct_reshrink_mul_magnified B M m x
  rw [quantize_eq, abs_mul, abs_of_pos hr]
  calc (Quantizer.construct B M m).m_reshrink
        * |((truncToInt (x * (Quantizer.construct B M m).m_magnify) : Int) : ℚ)|
      ≤ (Quantizer.construct B M m).m_reshrink
        * |x * (Quantizer.construct B M m).m_magnify| :=
        mul_le_mul_of_nonneg_left (abs_truncToInt_le _) (le_of_lt hr)
    _ = |(Quantizer.construct B M m).m_reshrink
        * (x * (Quantizer.construct B M m).m_magnify)| := by
        rw [abs_mul (Quantizer.construct B M m).m_reshrink, abs_of_pos hr]
    _ = |x| := by rw [hx]

/-- On a calibration with finite scale factors and `B <= 32`, the binary64 `quantize2int`
of an in-range binary64 number is the truncation computed in exact arithmetic. -/
theorem binary64_quantize2int_construct {B : Int} {M x : ℚ} (m : ℚ) (hM : 0 < M)
    (hlo : (2 : ℚ) ^ (B - 1025) ≤ M) (hhi : M < (2 : ℚ) ^ (B + 1022)) (hB : B ≤ 32)
    (hxb : isBinary64 x = true) (hx : |x| ≤ M) :
    (Binary64.Quantizer.construct B M m).quantize2int (Binary64.Double.finite x)
      = some ((Quantizer.construct B M m).quantize2int x) := by
  have hlt : |x * pow2 (B - (frexpExponent M + 1))| < pow2 31 := by
    have h := construct_abs_mul_magnify_lt B m hM hx
    rw [construct_magnify] at h
    exact lt_of_lt_of_le h (pow2_le_pow2 (by omega))
  rw [binary64_quantize2int_of_finite (binary64_construct_magnify_of_range m hlo hhi) hxb hlt,
    quantize2int_eq, construct_magnify]

/-- On a calibration with finite scale factors, the binary64 `quantizedInt2double` of the
lattice integer of an in-range number is the value computed in exact arithmetic. -/
theorem binary64_quantizedInt2double_construct {B : Int} {M x : ℚ} (m : ℚ) (hM : 0 < M)
    (hMb : isBinary64 M = true)
    (hlo : (2 : ℚ) ^ (B - 1025) ≤ M) (hhi : M < (2 : ℚ) ^ (B + 1022)) (hB : B ≤ 32)
    (hx : |x| ≤ M) :
    (Binary64.Quantizer.construct B M m).quantizedInt2double
        ((Quantizer.construct B M m).quantize2int x)
      = Binary64.Double.finite ((Quantizer.construct B M m).quantize x)
    ∧ isBinary64 ((Quantizer.construct B M m).quantize x) = true := by
  obtain ⟨h1, h2⟩ := exponent_bounds_of_range hlo hhi
  have hg := construct_abs_mul_magnify_lt B m hM hx
  have hn31 : |(((Quantizer.construct B M m).quantize2int x : Int) : ℚ)| < pow2 31 := by
    rw [quantize2int_eq]
    exact lt_of_le_of_lt (abs_truncToInt_le _)
      (lt_of_lt_of_le hg (pow2_le_pow2 (by omega)))
  have hn53 : |(((Quantizer.construct B M m).quantize2int x : Int) : ℚ)| < pow2 53 :=
    lt_of_lt_of_le hn31 (pow2_le_pow2 (by decide))
  have hval : pow2 ((frexpExponent M + 1) - B)
        * (((Quantizer.construct B M m).quantize2int x : Int) : ℚ)
      = (Quantizer.construct B M m).quantize x := by
    rw [quantize_eq, quantize2int_eq, construct_reshrink]
  have hM1024 : |M| < pow2 1024 := abs_lt_pow2_of_isBinary64 hMb
  rw [abs_of_pos hM] at hM1024
  have hbig : |(((Quantizer.construct B M m).quantize2int x : Int) : ℚ)
      * pow2 ((frexpExponent M + 1) - B)| < pow2 1024 := by
    rw [mul_comm, hval]
    exact lt_of_le_of_lt (le_trans (abs_quantize_le_exact B M m x) hx) hM1024
  have hbin := isBinary64_intCast_mul_pow2 _ ((frexpExponent M + 1) - B) (by omega) hn53 hbig
  rw [mul_comm, hval] at hbin
  refine ⟨?_, hbin⟩
  rw [binary64_quantizedInt2double_of_finite _
    (binary64_construct_reshrink_of_range m hlo hhi) (by omega) hn53 hbig, hval]

/-- On a calibration with finite scale factors and `B <= 32`, the binary64 `quantize` of an
in-range binary64 number is the value computed in exact arithmetic, a binary64 number. -/
theorem binary64_quantize_construct {B : Int} {M x : ℚ} (m : ℚ) (hM : 0 < M)
    (hMb : isBinary64 M = true)
    (hlo : (2 : ℚ) ^ (B - 1025) ≤ M) (hhi : M < (2 : ℚ) ^ (B + 1022)) (hB : B ≤ 32)
    (hxb : isBinary64 x = true) (hx : |x| ≤ M) :
    (Binary64.Quantizer.construct B M m).quantize (Binary64.Double.finite x)
      = some (Binary64.Double.finite ((Quantizer.construct B M m).quantize x))
    ∧ isBinary64 ((Quantizer.construct B M m).quantize x) = true := by
  obtain ⟨h1, h2⟩ := binary64_quantizedInt2double_construct m hM hMb hlo hhi hB hx
  refine ⟨?_, h2⟩
  rw [binary64_quantize_of_some (binary64_quantize2int_construct m hM hlo hhi hB hxb hx), h1]

/-! ## Concrete values -/

theorem frexpExponent_neg (x : ℚ) : frexpExponent (-x) = frexpExponent x := by
  unfold frexpExponent
  simp only [abs_neg, neg_eq_zero]

theorem isBinary64_neg {x : ℚ} (h : isBinary64 x = true) : isBinary64 (-x) = true := by
  by_cases h0 : x = 0
  · rw [h0, neg_zero]
    exact isBinary64_zero
  · obtain ⟨n, hn⟩ := exists_int_of_isBinary64 h0 h
    obtain ⟨he, _⟩ := (isBinary64_iff_of_ne_zero h0).mp h
    refine isBinary64_of_int_mul_pow2 (-n) (max (frexpExponent x - 53) (-1074)) ?_ ?_ ?_
    · push_cast
      rw [neg_mul, ← hn]
    · rw [frexpExponent_neg]
    · rw [frexpExponent_neg]
      exact he

theorem isBinary64_one : isBinary64 1 = true := by
  refine isBinary64_of_int_mul (2 ^ 52) frexpExponent_one (by decide) ?_
  have hmax : max ((1 : Int) - 53) (-1074) = -52 := by decide
  rw [hmax]
  norm_num [pow2]

theorem frexpExponent_nine_nine_nine : frexpExponent 999 = 10 :=
  frexpExponent_eq_of_pos (by norm_num) (by norm_num)

theorem isBinary64_nine_nine_nine : isBinary64 999 = true := by
  refine isBinary64_of_int_mul (999 * 2 ^ 43) frexpExponent_nine_nine_nine (by decide) ?_
  have hmax : max ((10 : Int) - 53) (-1074) = -43 := by decide
  rw [hmax]
  norm_num [pow2]

/-- The number `999 + 5 * 2^(-25)`, off the lattice of spacing `2^(-19)`. -/
theorem frexpExponent_offLattice : frexpExponent (33520877573 / 2 ^ 25) = 10 :=
  frexpExponent_eq_of_pos (by norm_num) (by norm_num)

theorem isBinary64_offLattice : isBinary64 (33520877573 / 2 ^ 25) = true := by
  refine isBinary64_of_int_mul (33520877573 * 2 ^ 18) frexpExponent_offLattice (by decide) ?_
  have hmax : max ((10 : Int) - 53) (-1074) = -43 := by decide
  rw [hmax]
  norm_num [pow2]

theorem range_thousand :
    (2 : ℚ) ^ ((30 : Int) - 1025) ≤ 1000 ∧ (1000 : ℚ) < (2 : ℚ) ^ ((30 : Int) + 1022) := by
  constructor
  · have h : pow2 (30 - 1025) ≤ pow2 0 := pow2_le_pow2 (by decide)
    rw [pow2_zero] at h
    exact le_trans h (by norm_num)
  · have h : pow2 10 ≤ pow2 (30 + 1022) := pow2_le_pow2 (by decide)
    have h10 : pow2 10 = 1024 := by norm_num [pow2]
    rw [h10] at h
    exact lt_of_lt_of_le (by norm_num) h

theorem frexpExponent_tiny : frexpExponent (1 / 2 ^ 1000) = -999 :=
  frexpExponent_eq_of_pos (by norm_num) (by norm_num)

theorem isBinary64_tiny : isBinary64 (1 / 2 ^ 1000) = true := by
  refine isBinary64_of_int_mul (2 ^ 52) frexpExponent_tiny (by decide) ?_
  have hmax : max ((-999 : Int) - 53) (-1074) = -1052 := by decide
  rw [hmax]
  norm_num [pow2]

theorem frexpExponent_tiny_edge : frexpExponent (1 / 2 ^ 1010) = -1009 :=
  frexpExponent_eq_of_pos (by norm_num) (by norm_num)

theorem isBinary64_tiny_edge : isBinary64 (1 / 2 ^ 1010) = true := by
  refine isBinary64_of_int_mul (2 ^ 52) frexpExponent_tiny_edge (by decide) ?_
  have hmax : max ((-1009 : Int) - 53) (-1074) = -1062 := by decide
  rw [hmax]
  norm_num [pow2]

/-- With `B = 30`, calibrating from `maxMagnitude = 2^(-1000)` calls
`std::pow(2.0, 1028)`, which overflows. -/
theorem binary64_construct_tiny_magnify (m : ℚ) :
    (Binary64.Quantizer.construct 30 (1 / 2 ^ 1000) m).m_magnify = Binary64.Double.posInf := by
  rw [binary64_construct_magnify, frexpExponent_tiny]
  exact powTwo_of_ge (by decide)

theorem binary64_construct_tiny_reshrink (m : ℚ) :
    (Binary64.Quantizer.construct 30 (1 / 2 ^ 1000) m).m_reshrink
      = Binary64.Double.finite (pow2 (-1028)) := by
  rw [binary64_construct_reshrink, frexpExponent_tiny]
  exact powTwo_of_range (by decide) (by decide)

theorem binary64_quantize2int_tiny (m : ℚ) :
    (Binary64.Quantizer.construct 30 (1 / 2 ^ 1000) m).quantize2int
        (Binary64.Double.finite (1 / 2 ^ 1000)) = none := by
  rw [binary64_quantize2int_eq, binary64_construct_tiny_magnify,
    mul_finite_posInf_of_pos (by norm_num), toInt_posInf]

theorem binary64_quantize2int_tiny_zero (m : ℚ) :
    (Binary64.Quantizer.construct 30 (1 / 2 ^ 1000) m).quantize2int
        (Binary64.Double.finite 0) = none := by
  rw [binary64_quantize2int_eq, binary64_construct_tiny_magnify, mul_zero_posInf, toInt_nan]

/-- Generalisation of `binary64_quantize2int_of_finite`: it is enough that the truncated
product is a value of `int`. -/
theorem binary64_quantize2int_of_fits {q : Binary64.Quantizer} {j : Int} {x : ℚ}
    (hq : q.m_magnify = Binary64.Double.finite (pow2 j)) (hx : isBinary64 x = true)
    (hhi : |x * pow2 j| < pow2 1024) (hfit : fitsInt (truncToInt (x * pow2 j)) = true) :
    q.quantize2int (Binary64.Double.finite x) = some (truncToInt (x * pow2 j)) := by
  obtain ⟨v, hv, htr, _⟩ := roundBinary64_mul_pow2 hx j hhi
  have hfit2 : fitsInt (truncToInt v) = true := by
    rw [htr]
    exact hfit
  rw [binary64_quantize2int_eq, hq, mul_finite_finite, hv, toInt_finite hfit2, htr]

theorem abs_lt_pow2_of_fitsInt {n : Int} (h : fitsInt n = true) : |(n : ℚ)| < pow2 53 := by
  rw [fitsInt_iff] at h
  obtain ⟨h1, h2⟩ := h
  have h53 : pow2 53 = 9007199254740992 := by norm_num [pow2]
  rw [h53, abs_lt]
  constructor
  · have : (-9007199254740992 : Int) < n := by omega
    exact_mod_cast this
  · have : n < (9007199254740992 : Int) := by omega
    exact_mod_cast this

theorem frexpExponent_pow2 (k : Int) : frexpExponent (pow2 k) = k + 1 := by
  apply frexpExponent_unique
  · rw [abs_of_pos (pow2_pos k)]
    exact pow2_le_pow2 (by omega)
  · rw [abs_of_pos (pow2_pos k)]
    exact pow2_lt_pow2 (by omega)

/-- The exact power `2^1024` rounds to `+inf`. -/
theorem roundBinary64_pow2_overflow :
    Binary64.roundBinary64 (pow2 1024) = Binary64.Double.posInf := by
  have hp := pow2_pos 1024
  have hq : max (frexpExponent (pow2 1024) - 53) (-1074) = 972 := by
    rw [frexpExponent_pow2]
    decide
  have hquot : pow2 1024 / pow2 972 = (((2 : Int) ^ 52 : Int) : ℚ) := by
    rw [← pow2_sub]
    norm_num [pow2]
  have hback : ((((2 : Int) ^ 52 : Int) : ℚ)) * pow2 972 = pow2 1024 := by
    rw [← hquot, div_mul_cancel₀ _ (ne_of_gt (pow2_pos 972))]
  unfold Binary64.roundBinary64
  rw [if_neg (ne_of_gt hp), hq, hquot, roundNearestEven_intCast, hback,
    if_pos (le_abs_self _), if_pos hp]

theorem frexpExponent_huge : frexpExponent (2 ^ 1023) = 1024 := by
  have h : (2 : ℚ) ^ 1023 = pow2 1023 := by norm_num [pow2]
  rw [h, frexpExponent_pow2]
  decide

theorem isBinary64_huge : isBinary64 (2 ^ 1023) = true := by
  refine isBinary64_of_int_mul (2 ^ 52) frexpExponent_huge (by decide) ?_
  have hmax : max ((1024 : Int) - 53) (-1074) = 971 := by decide
  rw [hmax]
  norm_num [pow2]

theorem frexpExponent_tiny_max : frexpExponent (1 / 2 ^ 1050) = -1049 :=
  frexpExponent_eq_of_pos (by norm_num) (by norm_num)

theorem isBinary64_tiny_max : isBinary64 (1 / 2 ^ 1050) = true := by
  refine isBinary64_of_int_mul (2 ^ 24) frexpExponent_tiny_max (by decide) ?_
  have hmax : max ((-1049 : Int) - 53) (-1074) = -1074 := by decide
  rw [hmax]
  norm_num [pow2]

theorem frexpExponent_least_subnormal : frexpExponent (1 / 2 ^ 1074) = -1073 :=
  frexpExponent_eq_of_pos (by norm_num) (by norm_num)

theorem isBinary64_least_subnormal : isBinary64 (1 / 2 ^ 1074) = true := by
  refine isBinary64_of_int_mul 1 frexpExponent_least_subnormal (by decide) ?_
  have hmax : max ((-1073 : Int) - 53) (-1074) = -1074 := by decide
  rw [hmax]
  norm_num [pow2]

theorem isBinary64_pow2_of_range {k : Int} (h1 : -1074 ≤ k) (h2 : k ≤ 1023) :
    isBinary64 (pow2 k) = true := by
  have h := isBinary64_intCast_mul_pow2 1 k h1
    (by
      have h53 : (1 : ℚ) ≤ pow2 53 := one_le_pow2 (by decide)
      have h53' : pow2 0 < pow2 53 := pow2_lt_pow2 (by decide)
      rw [pow2_zero] at h53'
      simpa using h53')
    (by
      rw [Int.cast_one, one_mul, abs_of_pos (pow2_pos k)]
      exact pow2_lt_pow2 (by omega))
  rw [Int.cast_one, one_mul] at h
  exact h

/-! ## Claims -/

/-- C6 (monotonic calibration). For every positive `minEdgeLength` and all `0 < a <= b`,
the `magnify` calibrated from `b` is at most the one calibrated from `a`, and the
`reshrink` calibrated from `b` is at least the one calibrated from `a`. -/
theorem calibration_monotone (B : Int) (minEdgeLength a b : ℚ)
    (hmin : 0 < minEdgeLength) (ha : 0 < a) (hab : a ≤ b) :
    (Quantizer.construct B b minEdgeLength).m_magnify
        ≤ (Quantizer.construct B a minEdgeLength).m_magnify
    ∧ (Quantizer.construct B a minEdgeLength).m_reshrink
        ≤ (Quantizer.construct B b minEdgeLength).m_reshrink := by
  have h := frexpExponent_mono ha hab
  simp only [construct_magnify, construct_reshrink]
  exact ⟨pow2_le_pow2 (by omega), pow2_le_pow2 (by omega)⟩

/-- Instance of C6 at `B = 30`, `minEdgeLength = 1/1024`, `a = 3`, `b = 1000`. -/
theorem calibration_monotone_witness :
    ((0 : ℚ) < 1 / 1024 ∧ (0 : ℚ) < 3 ∧ (3 : ℚ) ≤ 1000)
    ∧ (Quantizer.construct 30 1000 (1 / 1024)).m_magnify
        ≤ (Quantizer.construct 30 3 (1 / 1024)).m_magnify
    ∧ (Quantizer.construct 30 3 (1 / 1024)).m_reshrink
        ≤ (Quantizer.construct 30 1000 (1 / 1024)).m_reshrink :=
  ⟨⟨by norm_num, by norm_num, by norm_num⟩,
    calibration_monotone 30 (1 / 1024) 3 1000 (by norm_num) (by norm_num) (by norm_num)⟩

/-- C7 (perturbation sufficiency scenario). With `B = 30`, `maxMagnitude = 1000` and
`minEdgeLength` the decimal `0.001` (or the binary64 number nearest to it), the exponents
are `e = 11` and `e_min = -9`, `bitsOfPurturbationRange()` is `|(e - B) - e_min| = 10`, and
`sufficientPerturbationRange()` is true exactly when
`10 >= PERTURBATION_BUFFER_BITS + MINIMUM_PERTURBATION_RANGE_BITS`. -/
theorem perturbation_sufficiency_scenario
    (PERTURBATION_BUFFER_BITS MINIMUM_PERTURBATION_RANGE_BITS : Int) :
    ∀ minEdgeLength ∈ [(1 / 1000 : ℚ), 4611686018427388 / 2 ^ 62],
      maxCoordinateValueBinaryExponent 1000 = 11
      ∧ minEdgeLengthBinaryExponent minEdgeLength = -9
      ∧ (Quantizer.construct 30 1000 minEdgeLength).bitsOfPurturbationRange
          = |((11 : Int) - 30) - (-9)|
      ∧ (Quantizer.construct 30 1000 minEdgeLength).bitsOfPurturbationRange = 10
      ∧ ((Quantizer.construct 30 1000 minEdgeLength).sufficientPerturbationRange
            PERTURBATION_BUFFER_BITS MINIMUM_PERTURBATION_RANGE_BITS = true
          ↔ 10 ≥ PERTURBATION_BUFFER_BITS + MINIMUM_PERTURBATION_RANGE_BITS) := by
  intro minEdgeLength hmem
  have hmin : frexpExponent minEdgeLength = -9 := by
    simp only [List.mem_cons, List.mem_singleton, List.not_mem_nil, or_false] at hmem
    rcases hmem with h | h
    · rw [h]
      exact frexpExponent_thousandth
    · rw [h]
      exact frexpExponent_thousandth_binary64
  have hbits : (Quantizer.construct 30 1000 minEdgeLength).m_bitsOfPurturbationRange = 10 := by
    rw [construct_bits, frexpExponent_thousand, hmin]
    decide
  refine ⟨?_, ?_, ?_, ?_, ?_⟩
  · rw [maxCoordinateValueBinaryExponent_eq, frexpExponent_thousand]
    decide
  · rw [minEdgeLengthBinaryExponent_eq, hmin]
  · rw [bitsOfPurturbationRange_eq, hbits]
    decide
  · rw [bitsOfPurturbationRange_eq, hbits]
  · rw [sufficientPerturbationRange_iff, hbits]

/-- Instance of C7 at the binary64 number nearest to `0.001`, with the policy constants
`8` and `2`. -/
theorem perturbation_sufficiency_scenario_witness :
    (4611686018427388 / 2 ^ 62 : ℚ) ∈ [(1 / 1000 : ℚ), 4611686018427388 / 2 ^ 62]
    ∧ maxCoordinateValueBinaryExponent 1000 = 11
    ∧ minEdgeLengthBinaryExponent (4611686018427388 / 2 ^ 62) = -9
    ∧ (Quantizer.construct 30 1000 (4611686018427388 / 2 ^ 62)).bitsOfPurturbationRange
        = |((11 : Int) - 30) - (-9)|
    ∧ (Quantizer.construct 30 1000 (4611686018427388 / 2 ^ 62)).bitsOfPurturbationRange = 10
    ∧ ((Quantizer.construct 30 1000 (4611686018427388 / 2 ^ 62)).sufficientPerturbationRange
          8 2 = true
        ↔ (10 : Int) ≥ 8 + 2) :=
  ⟨by simp, perturbation_sufficiency_scenario 8 2 (4611686018427388 / 2 ^ 62) (by simp)⟩

/-- C8, as stated, fails: with `B = 30`, `calibrate(1.0, 1.0)` computes
`quantaBitsPerMinEdge = -29`, which is not above `-10`, and the warning line is not
written. -/
theorem degenerate_bound_scenario_counterexample :
    quantaBitsPerMinEdge 30 1 1 = -29
    ∧ ¬ (quantaBitsPerMinEdge 30 1 1 > -10)
    ∧ insufficientQuantaBitsWarning ∉ (calibrate 30 1 1).2 := by
  have hq := quantaBitsPerMinEdge_unit_bounds
  have hn : ¬ (quantaBitsPerMinEdge 30 1 1 > -10) := by
    rw [hq]
    decide
  refine ⟨hq, hn, ?_⟩
  rw [calibrate_snd, warning_mem_calibrateOutput_iff]
  exact hn

/-- C8, amended. With `B = 30`, `calibrate(1.0, 1.0)` completes with `magnify = 2^28`,
`reshrink = 2^(-28)`, `magnify * reshrink = 1`, `quantaBitsPerMinEdge = -29`,
`bitsOfPurturbationRange() = 29`, and it writes the single line reporting `-29`, without
the coarse-grid warning. -/
theorem degenerate_bound_scenario :
    (calibrate 30 1 1).1.m_magnify = (2 : ℚ) ^ (28 : Int)
    ∧ (calibrate 30 1 1).1.m_reshrink = (2 : ℚ) ^ (-28 : Int)
    ∧ (calibrate 30 1 1).1.m_magnify * (calibrate 30 1 1).1.m_reshrink = 1
    ∧ quantaBitsPerMinEdge 30 1 1 = -29
    ∧ (calibrate 30 1 1).1.bitsOfPurturbationRange = 29
    ∧ (calibrate 30 1 1).2 = ["Quanta bits per min edge: -29"] := by
  refine ⟨?_, ?_, ?_, quantaBitsPerMinEdge_unit_bounds, ?_, ?_⟩
  · rw [calibrate_fst, construct_magnify, frexpExponent_one]
    rfl
  · rw [calibrate_fst, construct_reshrink, frexpExponent_one]
    rfl
  · rw [calibrate_fst]
    exact construct_magnify_mul_reshrink 30 1 1
  · rw [calibrate_fst, bitsOfPurturbationRange_eq, construct_bits, frexpExponent_one]
    decide
  · rw [calibrate_snd, calibrateOutput_eq, quantaBitsPerMinEdge_unit_bounds]
    decide

/-- C9, as stated, fails: with `B = 30`, `maxMagnitude = 1` and `minEdgeLength = 2^(-30)`
the exponents are `e = 2` and `e_min = -29`, so `bitsOfPurturbationRange() = |1| = 1` and
`reshrink = 2^(-28)`, yet `2^(-30) < 2^(1 - 1) * 2^(-28)`. -/
theorem perturbation_bits_meaning_counterexample :
    (0 : ℚ) < 1 ∧ (0 : ℚ) < 1 / 2 ^ 30
    ∧ quantaBitsPerMinEdge 30 1 (1 / 2 ^ 30) = 1
    ∧ (Quantizer.construct 30 1 (1 / 2 ^ 30)).bitsOfPurturbationRange = 1
    ∧ (Quantizer.construct 30 1 (1 / 2 ^ 30)).m_reshrink = 1 / 2 ^ 28
    ∧ ¬ ((1 / 2 ^ 30 : ℚ)
          ≥ (2 : ℚ) ^ ((Quantizer.construct 30 1 (1 / 2 ^ 30)).bitsOfPurturbationRange - 1)
            * (Quantizer.construct 30 1 (1 / 2 ^ 30)).m_reshrink) := by
  have hq : quantaBitsPerMinEdge 30 1 (1 / 2 ^ 30) = 1 := by
    rw [quantaBitsPerMinEdge_eq, frexpExponent_one, frexpExponent_two_pow_neg_thirty]
    decide
  have hb : (Quantizer.construct 30 1 (1 / 2 ^ 30)).bitsOfPurturbationRange = 1 := by
    rw [bitsOfPurturbationRange_eq, construct_bits, frexpExponent_one,
      frexpExponent_two_pow_neg_thirty]
    decide
  have hr : (Quantizer.construct 30 1 (1 / 2 ^ 30)).m_reshrink = 1 / 2 ^ 28 := by
    rw [construct_reshrink, frexpExponent_one]
    norm_num [pow2]
  refine ⟨by norm_num, by norm_num, hq, hb, hr, ?_⟩
  rw [hb, hr]
  norm_num

/-- C9, amended. For positive bounds with `quantaBitsPerMinEdge = (e - B) - e_min <= 0`,
the minimum edge spans at least `2^(bits - 1)` lattice cells:
`minEdgeLength >= 2^(bitsOfPurturbationRange() - 1) * reshrink`. -/
theorem perturbation_bits_meaning (B : Int) (maxMagnitude minEdgeLength : ℚ)
    (hmax : 0 < maxMagnitude) (hmin : 0 < minEdgeLength)
    (hq : quantaBitsPerMinEdge B maxMagnitude minEdgeLength ≤ 0) :
    minEdgeLength
      ≥ (2 : ℚ) ^ ((Quantizer.construct B maxMagnitude minEdgeLength).bitsOfPurturbationRange - 1)
        * (Quantizer.construct B maxMagnitude minEdgeLength).m_reshrink := by
  obtain ⟨hlo, _⟩ := frexpExponent_spec_of_pos hmin
  rw [quantaBitsPerMinEdge_eq] at hq
  rw [bitsOfPurturbationRange_eq, construct_bits, construct_reshrink, abs_of_nonpos hq]
  have hsplit : (2 : ℚ) ^ (-(frexpExponent maxMagnitude + 1 - B - frexpExponent minEdgeLength) - 1)
        * pow2 (frexpExponent maxMagnitude + 1 - B)
      = pow2 (frexpExponent minEdgeLength - 1) := by
    show pow2 _ * pow2 _ = pow2 _
    rw [← pow2_add]
    congr 1
    ring
  rw [ge_iff_le, hsplit]
  exact hlo

/-- Instance of the amended C9 at `B = 30`, `maxMagnitude = 1000`, `minEdgeLength = 1/1024`. -/
theorem perturbation_bits_meaning_witness :
    ((0 : ℚ) < 1000 ∧ (0 : ℚ) < 1 / 1024 ∧ quantaBitsPerMinEdge 30 1000 (1 / 1024) ≤ 0)
    ∧ (1 / 1024 : ℚ)
      ≥ (2 : ℚ) ^ ((Quantizer.construct 30 1000 (1 / 1024)).bitsOfPurturbationRange - 1)
        * (Quantizer.construct 30 1000 (1 / 1024)).m_reshrink :=
  ⟨⟨by norm_num, by norm_num, by rw [quantaBitsPerMinEdge_thousand_two_pow_neg_ten]; decide⟩,
    perturbation_bits_meaning 30 1000 (1 / 1024) (by norm_num) (by norm_num)
      (by rw [quantaBitsPerMinEdge_thousand_two_pow_neg_ten]; decide)⟩

/-- C11 (copy preserves the scale factors). For every quantizer `q`, whatever value the
uninitialised member takes, the copy has the `magnify` and `reshrink` of `q`, and
`quantize2int`, `quantizedInt2double`, `quantize`, `reshrink` and `purturbationQuantum`
return on the copy what they return on `q`, for every argument. -/
theorem copy_preserves_scale_factors (indeterminate : Int) (q : Quantizer) :
    (Quantizer.copy indeterminate q).m_magnify = q.m_magnify
    ∧ (Quantizer.copy indeterminate q).m_reshrink = q.m_reshrink
    ∧ (∀ x : ℚ, (Quantizer.copy indeterminate q).quantize2int x = q.quantize2int x)
    ∧ (∀ n : Int,
        (Quantizer.copy indeterminate q).quantizedInt2double n = q.quantizedInt2double n)
    ∧ (∀ x : ℚ, (Quantizer.copy indeterminate q).quantize x = q.quantize x)
    ∧ (∀ x : ℚ, (Quantizer.copy indeterminate q).reshrink x = q.reshrink x)
    ∧ (Quantizer.copy indeterminate q).purturbationQuantum = q.purturbationQuantum := by
  refine ⟨rfl, rfl, ?_, ?_, ?_, ?_, ?_⟩
  · intro x
    rw [quantize2int_eq, quantize2int_eq, copy_magnify]
  · intro n
    rw [quantizedInt2double_eq, quantizedInt2double_eq, copy_reshrink]
  · intro x
    rw [quantize_eq, quantize_eq, copy_magnify, copy_reshrink]
  · intro x
    rw [reshrink_eq, reshrink_eq, copy_reshrink]
  · rw [purturbationQuantum_eq, purturbationQuantum_eq, copy_reshrink]

/-- C12 (non-negative bit budget). For positive bounds, `bitsOfPurturbationRange()` equals
`|(e - B) - e_min|` and is non-negative.  When both bounds are binary64 numbers their
`frexp` exponents lie between `-1073` and `1024`, so for a lattice width with
`|B| <= 2^30` the incremented exponent, both differences and the absolute value are all
values of a 32-bit `int`: the arithmetic of `calibrate` does not overflow. -/
theorem bit_budget_nonneg (B : Int) (maxMagnitude minEdgeLength : ℚ)
    (hmax : 0 < maxMagnitude) (hmin : 0 < minEdgeLength) :
    0 ≤ (Quantizer.construct B maxMagnitude minEdgeLength).bitsOfPurturbationRange
    ∧ (Quantizer.construct B maxMagnitude minEdgeLength).bitsOfPurturbationRange
        = |((frexpExponent maxMagnitude + 1) - B) - frexpExponent minEdgeLength|
    ∧ (isBinary64 maxMagnitude = true → isBinary64 minEdgeLength = true →
        (-1073 ≤ frexpExponent maxMagnitude ∧ frexpExponent maxMagnitude ≤ 1024)
        ∧ (-1073 ≤ frexpExponent minEdgeLength ∧ frexpExponent minEdgeLength ≤ 1024)
        ∧ (|B| ≤ 2 ^ 30 →
            fitsInt (maxCoordinateValueBinaryExponent maxMagnitude) = true
            ∧ fitsInt (maxCoordinateValueBinaryExponent maxMagnitude - B) = true
            ∧ fitsInt (quantaBitsPerMinEdge B maxMagnitude minEdgeLength) = true
            ∧ fitsInt |quantaBitsPerMinEdge B maxMagnitude minEdgeLength| = true)) := by
  refine ⟨?_, ?_, ?_⟩
  · rw [bitsOfPurturbationRange_eq, construct_bits]
    exact abs_nonneg _
  · rw [bitsOfPurturbationRange_eq, construct_bits]
  · intro hbM hbm
    have hM := isBinary64_exponent_bounds (ne_of_gt hmax) hbM
    have hm := isBinary64_exponent_bounds (ne_of_gt hmin) hbm
    refine ⟨hM, hm, ?_⟩
    intro hB
    obtain ⟨hB1, hB2⟩ := abs_le.mp hB
    obtain ⟨hM1, hM2⟩ := hM
    obtain ⟨hm1, hm2⟩ := hm
    have hpow : (2 : Int) ^ 30 = 1073741824 := by norm_num
    rw [hpow] at hB1 hB2
    rw [quantaBitsPerMinEdge_eq, maxCoordinateValueBinaryExponent_eq]
    have habs1 : |frexpExponent maxMagnitude + 1 - B - frexpExponent minEdgeLength|
        ≤ 1073743922 := abs_le.mpr ⟨by omega, by omega⟩
    have habs0 := abs_nonneg (frexpExponent maxMagnitude + 1 - B - frexpExponent minEdgeLength)
    refine ⟨?_, ?_, ?_, ?_⟩ <;> rw [fitsInt_iff] <;> constructor <;> omega

/-- Instance of C12 at `B = 30`, `maxMagnitude = 1000`, `minEdgeLength = 1/1024`, both
binary64 numbers. -/
theorem bit_budget_nonneg_witness :
    ((0 : ℚ) < 1000 ∧ (0 : ℚ) < 1 / 1024 ∧ isBinary64 1000 = true
      ∧ isBinary64 (1 / 1024) = true ∧ |(30 : Int)| ≤ 2 ^ 30)
    ∧ 0 ≤ (Quantizer.construct 30 1000 (1 / 1024)).bitsOfPurturbationRange
    ∧ (Quantizer.construct 30 1000 (1 / 1024)).bitsOfPurturbationRange
        = |((frexpExponent 1000 + 1) - 30) - frexpExponent (1 / 1024)|
    ∧ (isBinary64 1000 = true → isBinary64 (1 / 1024) = true →
        (-1073 ≤ frexpExponent 1000 ∧ frexpExponent 1000 ≤ 1024)
        ∧ (-1073 ≤ frexpExponent (1 / 1024) ∧ frexpExponent (1 / 1024) ≤ 1024)
        ∧ (|(30 : Int)| ≤ 2 ^ 30 →
            fitsInt (maxCoordinateValueBinaryExponent 1000) = true
            ∧ fitsInt (maxCoordinateValueBinaryExponent 1000 - 30) = true
            ∧ fitsInt (quantaBitsPerMinEdge 30 1000 (1 / 1024)) = true
            ∧ fitsInt |quantaBitsPerMinEdge 30 1000 (1 / 1024)| = true)) :=
  ⟨⟨by norm_num, by norm_num, isBinary64_thousand, isBinary64_two_pow_neg_ten, by decide⟩,
    bit_budget_nonneg 30 1000 (1 / 1024) (by norm_num) (by norm_num)⟩

/-- C14 fails on the code: the copy constructor leaves `m_bitsOfPurturbationRange`
uninitialised, so the queries of a copy report the indeterminate value, not the value of
the original.  For the quantizer calibrated with `B = 30` from `1000` and `2^(-10)` the
original reports `10` bits and, with the policy constants `8` and `2`, a sufficient range;
a copy whose uninitialised member holds `0` reports `0` bits and an insufficient range. -/
theorem copy_perturbation_queries_not_preserved :
    (∀ (indeterminate : Int) (q : Quantizer),
        (Quantizer.copy indeterminate q).bitsOfPurturbationRange = indeterminate)
    ∧ (Quantizer.construct 30 1000 (1 / 1024)).bitsOfPurturbationRange = 10
    ∧ (Quantizer.copy 0 (Quantizer.construct 30 1000 (1 / 1024))).bitsOfPurturbationRange = 0
    ∧ (Quantizer.construct 30 1000 (1 / 1024)).sufficientPerturbationRange 8 2 = true
    ∧ (Quantizer.copy 0 (Quantizer.construct 30 1000 (1 / 1024))).sufficientPerturbationRange
        8 2 = false := by
  refine ⟨fun u q => ?_, ?_, ?_, ?_, ?_⟩
  · rw [bitsOfPurturbationRange_eq, copy_bits]
  · rw [bitsOfPurturbationRange_eq, construct_bits_scenario]
  · rw [bitsOfPurturbationRange_eq, copy_bits]
  · rw [sufficientPerturbationRange_iff, construct_bits_scenario]
    decide
  · rw [← Bool.not_eq_true, sufficientPerturbationRange_iff, copy_bits]
    decide

/-- C1, as stated, fails: with `B = 30` and `maxMagnitude = 2^(-1000)`,
`minEdgeLength = 2^(-1010)`, `calibrate` stores `m_magnify = +inf`
(`std::pow(2.0, 1028)` overflows); for the in-range `x = 2^(-1000)` the product
`x * m_magnify` is `+inf`, not below `2^30`, and `quantize2int(x)` converts `+inf` to
`int`, which is undefined. -/
theorem no_overflow_counterexample :
    ((0 : ℚ) < 1 / 2 ^ 1000 ∧ (0 : ℚ) < 1 / 2 ^ 1010 ∧ isBinary64 (1 / 2 ^ 1000) = true
      ∧ isBinary64 (1 / 2 ^ 1010) = true ∧ |(1 / 2 ^ 1000 : ℚ)| ≤ 1 / 2 ^ 1000)
    ∧ (Binary64.Quantizer.construct 30 (1 / 2 ^ 1000) (1 / 2 ^ 1010)).m_magnify
        = Binary64.Double.posInf
    ∧ (Binary64.Double.finite (1 / 2 ^ 1000)).mul
          (Binary64.Quantizer.construct 30 (1 / 2 ^ 1000) (1 / 2 ^ 1010)).m_magnify
        = Binary64.Double.posInf
    ∧ (Binary64.Quantizer.construct 30 (1 / 2 ^ 1000) (1 / 2 ^ 1010)).quantize2int
          (Binary64.Double.finite (1 / 2 ^ 1000)) = none := by
  refine ⟨⟨by norm_num, by norm_num, isBinary64_tiny, isBinary64_tiny_edge, ?_⟩,
    binary64_construct_tiny_magnify _, ?_, binary64_quantize2int_tiny _⟩
  · rw [abs_of_pos (by norm_num)]
  · rw [binary64_construct_tiny_magnify, mul_finite_posInf_of_pos (by norm_num)]

/-- C1, amended. Let `0 <= B <= 32` and let `maxMagnitude` be a binary64 number with
`2^(B-1025) <= maxMagnitude < 2^(B+1022)` (so that both calls of `std::pow` return finite
non-zero powers of two), `minEdgeLength > 0`.  For every binary64 `x` with
`|x| <= maxMagnitude` the product `x * m_magnify` is a finite double below `2^B` in
magnitude, `quantize2int(x)` is defined and lies strictly between `-2^B` and `2^B`, and
`maxMagnitude * m_magnify` is a finite double below `2^B`. -/
theorem no_overflow (B : Int) (maxMagnitude minEdgeLength x : ℚ)
    (hmax : 0 < maxMagnitude) (hmin : 0 < minEdgeLength)
    (hMb : isBinary64 maxMagnitude = true)
    (hlo : (2 : ℚ) ^ (B - 1025) ≤ maxMagnitude) (hhi : maxMagnitude < (2 : ℚ) ^ (B + 1022))
    (hB0 : 0 ≤ B) (hB : B ≤ 32)
    (hxb : isBinary64 x = true) (hx : |x| ≤ maxMagnitude) :
    (∃ v : ℚ, (Binary64.Double.finite x).mul
          (Binary64.Quantizer.construct B maxMagnitude minEdgeLength).m_magnify
        = Binary64.Double.finite v ∧ |v| < (2 : ℚ) ^ B)
    ∧ (∃ n : Int, (Binary64.Quantizer.construct B maxMagnitude minEdgeLength).quantize2int
          (Binary64.Double.finite x) = some n
        ∧ -((2 : ℚ) ^ B) < (n : ℚ) ∧ (n : ℚ) < (2 : ℚ) ^ B)
    ∧ (∃ w : ℚ, (Binary64.Double.finite maxMagnitude).mul
          (Binary64.Quantizer.construct B maxMagnitude minEdgeLength).m_magnify
        = Binary64.Double.finite w ∧ w < (2 : ℚ) ^ B) := by
  have hg := binary64_construct_magnify_of_range minEdgeLength hlo hhi
  have hB1 : pow2 (B - 1) < pow2 B := pow2_lt_pow2 (by omega)
  have hone : 1 ≤ pow2 B := one_le_pow2 hB0
  have h1024 : pow2 (B - 1) ≤ pow2 1024 := pow2_le_pow2 (by omega)
  have key : ∀ t : ℚ, isBinary64 t = true → |t| ≤ maxMagnitude →
      ∃ v : ℚ, (Binary64.Double.finite t).mul
          (Binary64.Quantizer.construct B maxMagnitude minEdgeLength).m_magnify
        = Binary64.Double.finite v ∧ |v| < pow2 B := by
    intro t htb ht
    have hlt := construct_abs_mul_magnify_lt B minEdgeLength hmax ht
    rw [construct_magnify] at hlt
    obtain ⟨v, hv, _, hcase⟩ := roundBinary64_mul_pow2 htb
      (B - (frexpExponent maxMagnitude + 1)) (lt_of_lt_of_le hlt h1024)
    refine ⟨v, ?_, ?_⟩
    · rw [hg, mul_finite_finite, hv]
    · rcases hcase with h | h
      · rw [h]
        exact lt_trans hlt hB1
      · exact lt_of_lt_of_le h hone
  refine ⟨key x hxb hx, ?_, ?_⟩
  · refine ⟨(Quantizer.construct B maxMagnitude minEdgeLength).quantize2int x,
      binary64_quantize2int_construct minEdgeLength hmax hlo hhi hB hxb hx, ?_⟩
    have hlt := construct_abs_mul_magnify_lt B minEdgeLength hmax hx
    have habs : |(((Quantizer.construct B maxMagnitude minEdgeLength).quantize2int x : Int)
        : ℚ)| < pow2 B := by
      rw [quantize2int_eq]
      exact lt_of_le_of_lt (abs_truncToInt_le _) (lt_trans hlt hB1)
    exact abs_lt.mp habs
  · obtain ⟨w, hw, hwlt⟩ := key maxMagnitude hMb (le_of_eq (abs_of_pos hmax))
    exact ⟨w, hw, lt_of_le_of_lt (le_abs_self w) hwlt⟩

/-- Instance of the amended C1 at `B = 30`, `maxMagnitude = 1000`, `minEdgeLength = 1/1024`,
`x = -999`. -/
theorem no_overflow_witness :
    ((0 : ℚ) < 1000 ∧ (0 : ℚ) < 1 / 1024 ∧ isBinary64 1000 = true
      ∧ (2 : ℚ) ^ ((30 : Int) - 1025) ≤ 1000 ∧ (1000 : ℚ) < (2 : ℚ) ^ ((30 : Int) + 1022)
      ∧ (0 : Int) ≤ 30 ∧ (30 : Int) ≤ 32 ∧ isBinary64 (-999) = true ∧ |(-999 : ℚ)| ≤ 1000)
    ∧ (∃ v : ℚ, (Binary64.Double.finite (-999)).mul
          (Binary64.Quantizer.construct 30 1000 (1 / 1024)).m_magnify
        = Binary64.Double.finite v ∧ |v| < (2 : ℚ) ^ (30 : Int))
    ∧ (∃ n : Int, (Binary64.Quantizer.construct 30 1000 (1 / 1024)).quantize2int
          (Binary64.Double.finite (-999)) = some n
        ∧ -((2 : ℚ) ^ (30 : Int)) < (n : ℚ) ∧ (n : ℚ) < (2 : ℚ) ^ (30 : Int))
    ∧ (∃ w : ℚ, (Binary64.Double.finite 1000).mul
          (Binary64.Quantizer.construct 30 1000 (1 / 1024)).m_magnify
        = Binary64.Double.finite w ∧ w < (2 : ℚ) ^ (30 : Int)) :=
  ⟨⟨by norm_num, by norm_num, isBinary64_thousand, range_thousand.1, range_thousand.2,
      by decide, by decide, isBinary64_neg isBinary64_nine_nine_nine, by norm_num [abs_le]⟩,
    no_overflow 30 1000 (1 / 1024) (-999) (by norm_num) (by norm_num) isBinary64_thousand
      range_thousand.1 range_thousand.2 (by decide) (by decide)
      (isBinary64_neg isBinary64_nine_nine_nine) (by norm_num [abs_le])⟩

/-- C2, as stated, fails: with `B = 30` and `maxMagnitude = 2^(-1000)`,
`minEdgeLength = 2^(-1010)`, `m_magnify` is `+inf`, not the power of two `2^(B - e)`, and
`m_magnify * m_reshrink` is `+inf`, not `1`. -/
theorem power_of_two_exactness_counterexample :
    ((0 : ℚ) < 1 / 2 ^ 1000 ∧ (0 : ℚ) < 1 / 2 ^ 1010 ∧ isBinary64 (1 / 2 ^ 1000) = true
      ∧ isBinary64 (1 / 2 ^ 1010) = true)
    ∧ (Binary64.Quantizer.construct 30 (1 / 2 ^ 1000) (1 / 2 ^ 1010)).m_magnify
        = Binary64.Double.posInf
    ∧ (Binary64.Quantizer.construct 30 (1 / 2 ^ 1000) (1 / 2 ^ 1010)).m_magnify
        ≠ Binary64.Double.finite ((2 : ℚ) ^ ((30 : Int) - (frexpExponent (1 / 2 ^ 1000) + 1)))
    ∧ (Binary64.Quantizer.construct 30 (1 / 2 ^ 1000) (1 / 2 ^ 1010)).m_magnify.mul
          (Binary64.Quantizer.construct 30 (1 / 2 ^ 1000) (1 / 2 ^ 1010)).m_reshrink
        = Binary64.Double.posInf
    ∧ (Binary64.Quantizer.construct 30 (1 / 2 ^ 1000) (1 / 2 ^ 1010)).m_magnify.mul
          (Binary64.Quantizer.construct 30 (1 / 2 ^ 1000) (1 / 2 ^ 1010)).m_reshrink
        ≠ Binary64.Double.finite 1 := by
  have hprod : (Binary64.Quantizer.construct 30 (1 / 2 ^ 1000) (1 / 2 ^ 1010)).m_magnify.mul
        (Binary64.Quantizer.construct 30 (1 / 2 ^ 1000) (1 / 2 ^ 1010)).m_reshrink
      = Binary64.Double.posInf := by
    rw [binary64_construct_tiny_magnify, binary64_construct_tiny_reshrink,
      mul_posInf_finite_of_pos (pow2_pos _)]
  refine ⟨⟨by norm_num, by norm_num, isBinary64_tiny, isBinary64_tiny_edge⟩,
    binary64_construct_tiny_magnify _, ?_, hprod, ?_⟩
  · rw [binary64_construct_tiny_magnify]
    exact fun h => Binary64.Double.noConfusion h
  · rw [hprod]
    exact fun h => Binary64.Double.noConfusion h

/-- C2, amended. For positive bounds with `2^(B-1025) <= maxMagnitude < 2^(B+1022)`,
`calibrate` sets `m_magnify` to the double `2^(B - e)` and `m_reshrink` to the double
`2^(e - B)`, with `e` the `frexp` exponent of `maxMagnitude` plus one, and the double
product `m_magnify * m_reshrink` is exactly `1`. -/
theorem power_of_two_exactness (B : Int) (maxMagnitude minEdgeLength : ℚ)
    (hmax : 0 < maxMagnitude) (hmin : 0 < minEdgeLength)
    (hlo : (2 : ℚ) ^ (B - 1025) ≤ maxMagnitude) (hhi : maxMagnitude < (2 : ℚ) ^ (B + 1022)) :
    (Binary64.Quantizer.construct B maxMagnitude minEdgeLength).m_magnify
        = Binary64.Double.finite ((2 : ℚ) ^ (B - (frexpExponent maxMagnitude + 1)))
    ∧ (Binary64.Quantizer.construct B maxMagnitude minEdgeLength).m_reshrink
        = Binary64.Double.finite ((2 : ℚ) ^ ((frexpExponent maxMagnitude + 1) - B))
    ∧ (Binary64.Quantizer.construct B maxMagnitude minEdgeLength).m_magnify.mul
          (Binary64.Quantizer.construct B maxMagnitude minEdgeLength).m_reshrink
        = Binary64.Double.finite 1 := by
  have hg := binary64_construct_magnify_of_range minEdgeLength hlo hhi
  have hr := binary64_construct_reshrink_of_range minEdgeLength hlo hhi
  refine ⟨hg, hr, ?_⟩
  rw [hg, hr, mul_finite_finite, pow2_mul_pow2_neg]
  exact roundBinary64_of_isBinary64 isBinary64_one

/-- Instance of the amended C2 at `B = 30`, `maxMagnitude = 1000`, `minEdgeLength = 1/1024`. -/
theorem power_of_two_exactness_witness :
    ((0 : ℚ) < 1000 ∧ (0 : ℚ) < 1 / 1024
      ∧ (2 : ℚ) ^ ((30 : Int) - 1025) ≤ 1000 ∧ (1000 : ℚ) < (2 : ℚ) ^ ((30 : Int) + 1022))
    ∧ (Binary64.Quantizer.construct 30 1000 (1 / 1024)).m_magnify
        = Binary64.Double.finite ((2 : ℚ) ^ ((30 : Int) - (frexpExponent 1000 + 1)))
    ∧ (Binary64.Quantizer.construct 30 1000 (1 / 1024)).m_reshrink
        = Binary64.Double.finite ((2 : ℚ) ^ ((frexpExponent 1000 + 1) - (30 : Int)))
    ∧ (Binary64.Quantizer.construct 30 1000 (1 / 1024)).m_magnify.mul
          (Binary64.Quantizer.construct 30 1000 (1 / 1024)).m_reshrink
        = Binary64.Double.finite 1 :=
  ⟨⟨by norm_num, by norm_num, range_thousand.1, range_thousand.2⟩,
    power_of_two_exactness 30 1000 (1 / 1024) (by norm_num) (by norm_num)
      range_thousand.1 range_thousand.2⟩

/-- C3, as stated, fails: with `B = 30` and `maxMagnitude = 2^(-1000)`,
`minEdgeLength = 2^(-1010)`, `m_magnify` is `+inf`, so for the in-range `x = 2^(-1000)`
`quantize(x)` converts `+inf` to `int`: its result is undefined and there is nothing to
quantize again. -/
theorem quantize_idempotent_counterexample :
    ((0 : ℚ) < 1 / 2 ^ 1000 ∧ (0 : ℚ) < 1 / 2 ^ 1010 ∧ isBinary64 (1 / 2 ^ 1000) = true
      ∧ isBinary64 (1 / 2 ^ 1010) = true ∧ |(1 / 2 ^ 1000 : ℚ)| ≤ 1 / 2 ^ 1000)
    ∧ (Binary64.Quantizer.construct 30 (1 / 2 ^ 1000) (1 / 2 ^ 1010)).quantize
          (Binary64.Double.finite (1 / 2 ^ 1000)) = none := by
  refine ⟨⟨by norm_num, by norm_num, isBinary64_tiny, isBinary64_tiny_edge, ?_⟩,
    binary64_quantize_of_none (binary64_quantize2int_tiny _)⟩
  rw [abs_of_pos (by norm_num)]

/-- C3, amended. Let `B <= 32` and let `maxMagnitude` be a binary64 number with
`2^(B-1025) <= maxMagnitude < 2^(B+1022)`, `minEdgeLength > 0`.  For every binary64 `x` with
`|x| <= maxMagnitude`, `quantize(x)` is defined and finite, and
`quantize(quantize(x)) = quantize(x)`. -/
theorem quantize_idempotent (B : Int) (maxMagnitude minEdgeLength x : ℚ)
    (hmax : 0 < maxMagnitude) (hmin : 0 < minEdgeLength)
    (hMb : isBinary64 maxMagnitude = true)
    (hlo : (2 : ℚ) ^ (B - 1025) ≤ maxMagnitude) (hhi : maxMagnitude < (2 : ℚ) ^ (B + 1022))
    (hB : B ≤ 32) (hxb : isBinary64 x = true) (hx : |x| ≤ maxMagnitude) :
    ∃ z : ℚ,
      (Binary64.Quantizer.construct B maxMagnitude minEdgeLength).quantize
          (Binary64.Double.finite x) = some (Binary64.Double.finite z)
      ∧ (Binary64.Quantizer.construct B maxMagnitude minEdgeLength).quantize
          (Binary64.Double.finite z) = some (Binary64.Double.finite z) := by
  obtain ⟨h1, hzb⟩ := binary64_quantize_construct minEdgeLength hmax hMb hlo hhi hB hxb hx
  have hz : |(Quantizer.construct B maxMagnitude minEdgeLength).quantize x| ≤ maxMagnitude :=
    le_trans (abs_quantize_le_exact B maxMagnitude minEdgeLength x) hx
  obtain ⟨h2, _⟩ := binary64_quantize_construct minEdgeLength hmax hMb hlo hhi hB hzb hz
  rw [quantize_idempotent_exact B maxMagnitude minEdgeLength x hmax hmin hx] at h2
  exact ⟨_, h1, h2⟩

/-- Instance of the amended C3 at `B = 30`, `maxMagnitude = 1000`, `minEdgeLength = 1/1024`,
`x = 999 + 5/2^25`. -/
theorem quantize_idempotent_witness :
    ((0 : ℚ) < 1000 ∧ (0 : ℚ) < 1 / 1024 ∧ isBinary64 1000 = true
      ∧ (2 : ℚ) ^ ((30 : Int) - 1025) ≤ 1000 ∧ (1000 : ℚ) < (2 : ℚ) ^ ((30 : Int) + 1022)
      ∧ (30 : Int) ≤ 32 ∧ isBinary64 (33520877573 / 2 ^ 25) = true ∧ |(33520877573 / 2 ^ 25 : ℚ)| ≤ 1000)
    ∧ ∃ z : ℚ,
      (Binary64.Quantizer.construct 30 1000 (1 / 1024)).quantize
          (Binary64.Double.finite (33520877573 / 2 ^ 25)) = some (Binary64.Double.finite z)
      ∧ (Binary64.Quantizer.construct 30 1000 (1 / 1024)).quantize
          (Binary64.Double.finite z) = some (Binary64.Double.finite z) :=
  ⟨⟨by norm_num, by norm_num, isBinary64_thousand, range_thousand.1, range_thousand.2,
      by decide, isBinary64_offLattice, by norm_num [abs_le]⟩,
    quantize_idempotent 30 1000 (1 / 1024) (33520877573 / 2 ^ 25) (by norm_num) (by norm_num)
      isBinary64_thousand range_thousand.1 range_thousand.2 (by decide)
      isBinary64_offLattice (by norm_num [abs_le])⟩

/-- C4, as stated, fails: with `B = 30` and `maxMagnitude = 2^(-1000)`,
`minEdgeLength = 2^(-1010)`, `m_magnify` is `+inf`; for the in-range `x = 0` the product
`x * m_magnify` is NaN and `quantize2int(x)` is undefined, so the round trip has no
defined value to compare with `x`. -/
theorem round_trip_bound_counterexample :
    ((0 : ℚ) < 1 / 2 ^ 1000 ∧ (0 : ℚ) < 1 / 2 ^ 1010 ∧ isBinary64 (1 / 2 ^ 1000) = true
      ∧ isBinary64 (1 / 2 ^ 1010) = true ∧ isBinary64 0 = true ∧ |(0 : ℚ)| ≤ 1 / 2 ^ 1000)
    ∧ (Binary64.Double.finite 0).mul
          (Binary64.Quantizer.construct 30 (1 / 2 ^ 1000) (1 / 2 ^ 1010)).m_magnify
        = Binary64.Double.nan
    ∧ (Binary64.Quantizer.construct 30 (1 / 2 ^ 1000) (1 / 2 ^ 1010)).quantize2int
          (Binary64.Double.finite 0) = none := by
  refine ⟨⟨by norm_num, by norm_num, isBinary64_tiny, isBinary64_tiny_edge, isBinary64_zero,
    by norm_num⟩, ?_, binary64_quantize2int_tiny_zero _⟩
  rw [binary64_construct_tiny_magnify, mul_zero_posInf]

/-- C4, amended. Let `B <= 32` and let `maxMagnitude` be a binary64 number with
`2^(B-1025) <= maxMagnitude < 2^(B+1022)`, `minEdgeLength > 0`.  For every binary64 `x` with
`|x| <= maxMagnitude`, `quantize2int(x)` is defined, `quantizedInt2double` of it and
`m_reshrink` are finite, and `|quantizedInt2double(quantize2int(x)) - x| <= m_reshrink`. -/
theorem round_trip_bound (B : Int) (maxMagnitude minEdgeLength x : ℚ)
    (hmax : 0 < maxMagnitude) (hmin : 0 < minEdgeLength)
    (hMb : isBinary64 maxMagnitude = true)
    (hlo : (2 : ℚ) ^ (B - 1025) ≤ maxMagnitude) (hhi : maxMagnitude < (2 : ℚ) ^ (B + 1022))
    (hB : B ≤ 32) (hxb : isBinary64 x = true) (hx : |x| ≤ maxMagnitude) :
    ∃ (n : Int) (z r : ℚ),
      (Binary64.Quantizer.construct B maxMagnitude minEdgeLength).quantize2int
          (Binary64.Double.finite x) = some n
      ∧ (Binary64.Quantizer.construct B maxMagnitude minEdgeLength).quantizedInt2double n
          = Binary64.Double.finite z
      ∧ (Binary64.Quantizer.construct B maxMagnitude minEdgeLength).m_reshrink
          = Binary64.Double.finite r
      ∧ |z - x| ≤ r := by
  obtain ⟨h2, _⟩ := binary64_quantizedInt2double_construct minEdgeLength hmax hMb hlo hhi hB hx
  refine ⟨_, _, _, binary64_quantize2int_construct minEdgeLength hmax hlo hhi hB hxb hx, h2,
    binary64_construct_reshrink_of_range minEdgeLength hlo hhi, ?_⟩
  have h := round_trip_bound_exact B maxMagnitude minEdgeLength x hmax hmin hx
  rw [quantizedInt2double_eq, quantize2int_eq, construct_reshrink] at h
  rw [quantize_eq, construct_reshrink]
  exact h

/-- Instance of the amended C4 at `B = 30`, `maxMagnitude = 1000`, `minEdgeLength = 1/1024`,
`x = -(999 + 5/2^25)`. -/
theorem round_trip_bound_witness :
    ((0 : ℚ) < 1000 ∧ (0 : ℚ) < 1 / 1024 ∧ isBinary64 1000 = true
      ∧ (2 : ℚ) ^ ((30 : Int) - 1025) ≤ 1000 ∧ (1000 : ℚ) < (2 : ℚ) ^ ((30 : Int) + 1022)
      ∧ (30 : Int) ≤ 32 ∧ isBinary64 (-(33520877573 / 2 ^ 25)) = true ∧ |(-(33520877573 / 2 ^ 25) : ℚ)| ≤ 1000)
    ∧ ∃ (n : Int) (z r : ℚ),
      (Binary64.Quantizer.construct 30 1000 (1 / 1024)).quantize2int
          (Binary64.Double.finite (-(33520877573 / 2 ^ 25))) = some n
      ∧ (Binary64.Quantizer.construct 30 1000 (1 / 1024)).quantizedInt2double n
          = Binary64.Double.finite z
      ∧ (Binary64.Quantizer.construct 30 1000 (1 / 1024)).m_reshrink
          = Binary64.Double.finite r
      ∧ |z - -(33520877573 / 2 ^ 25)| ≤ r :=
  ⟨⟨by norm_num, by norm_num, isBinary64_thousand, range_thousand.1, range_thousand.2,
      by decide, isBinary64_neg isBinary64_offLattice, by norm_num [abs_le]⟩,
    round_trip_bound 30 1000 (1 / 1024) (-(33520877573 / 2 ^ 25)) (by norm_num) (by norm_num)
      isBinary64_thousand range_thousand.1 range_thousand.2 (by decide)
      (isBinary64_neg isBinary64_offLattice) (by norm_num [abs_le])⟩

/-- C5, as stated, fails: with `B = 30` and `maxMagnitude = 2^(-1000)`,
`minEdgeLength = 2^(-1010)`, `m_magnify` is `+inf`; for `x = 0`, a multiple of `reshrink`
for which the claim gives `quantize(x) = x`, the product `x * m_magnify` is NaN and the
result of `quantize(x)` is undefined. -/
theorem quantize_snaps_toward_zero_counterexample :
    ((0 : ℚ) < 1 / 2 ^ 1000 ∧ (0 : ℚ) < 1 / 2 ^ 1010 ∧ isBinary64 (1 / 2 ^ 1000) = true
      ∧ isBinary64 (1 / 2 ^ 1010) = true ∧ isBinary64 0 = true ∧ |(0 : ℚ)| ≤ 1 / 2 ^ 1000)
    ∧ (Binary64.Quantizer.construct 30 (1 / 2 ^ 1000) (1 / 2 ^ 1010)).quantize
          (Binary64.Double.finite 0) = none :=
  ⟨⟨by norm_num, by norm_num, isBinary64_tiny, isBinary64_tiny_edge, isBinary64_zero,
      by norm_num⟩,
    binary64_quantize_of_none (binary64_quantize2int_tiny_zero _)⟩

/-- C5, amended. Let `B <= 32` and let `maxMagnitude` be a binary64 number with
`2^(B-1025) <= maxMagnitude < 2^(B+1022)`, `minEdgeLength > 0`.  For every binary64 `x` with
`|x| <= maxMagnitude`, `quantize(x)` is a finite double `z` and `m_reshrink` a finite double
`r` such that: `z` is an integer multiple of `r`; `z` lies between `0` and `x` inclusive;
every integer multiple of `r` between `0` and `x` inclusive has absolute value at most
`|z|`; and `z = x` exactly when `x` is an integer multiple of `r`. -/
theorem quantize_snaps_toward_zero (B : Int) (maxMagnitude minEdgeLength x : ℚ)
    (hmax : 0 < maxMagnitude) (hmin : 0 < minEdgeLength)
    (hMb : isBinary64 maxMagnitude = true)
    (hlo : (2 : ℚ) ^ (B - 1025) ≤ maxMagnitude) (hhi : maxMagnitude < (2 : ℚ) ^ (B + 1022))
    (hB : B ≤ 32) (hxb : isBinary64 x = true) (hx : |x| ≤ maxMagnitude) :
    ∃ z r : ℚ,
      (Binary64.Quantizer.construct B maxMagnitude minEdgeLength).quantize
          (Binary64.Double.finite x) = some (Binary64.Double.finite z)
      ∧ (Binary64.Quantizer.construct B maxMagnitude minEdgeLength).m_reshrink
          = Binary64.Double.finite r
      ∧ (∃ k : Int, z = (k : ℚ) * r)
      ∧ (0 ≤ x → 0 ≤ z ∧ z ≤ x)
      ∧ (x ≤ 0 → x ≤ z ∧ z ≤ 0)
      ∧ (∀ j : Int, (0 ≤ x → 0 ≤ (j : ℚ) * r ∧ (j : ℚ) * r ≤ x) →
          (x ≤ 0 → x ≤ (j : ℚ) * r ∧ (j : ℚ) * r ≤ 0) → |(j : ℚ) * r| ≤ |z|)
      ∧ (z = x ↔ ∃ j : Int, x = (j : ℚ) * r) := by
  obtain ⟨h1, _⟩ := binary64_quantize_construct minEdgeLength hmax hMb hlo hhi hB hxb hx
  have hr := binary64_construct_reshrink_of_range minEdgeLength hlo hhi
  rw [← construct_reshrink B maxMagnitude minEdgeLength] at hr
  exact ⟨_, _, h1, hr,
    quantize_snaps_toward_zero_exact B maxMagnitude minEdgeLength x hmax hmin hx⟩

/-- Instance of the amended C5 at `B = 30`, `maxMagnitude = 1000`, `minEdgeLength = 1/1024`,
`x = -(999 + 5/2^25)`. -/
theorem quantize_snaps_toward_zero_witness :
    ((0 : ℚ) < 1000 ∧ (0 : ℚ) < 1 / 1024 ∧ isBinary64 1000 = true
      ∧ (2 : ℚ) ^ ((30 : Int) - 1025) ≤ 1000 ∧ (1000 : ℚ) < (2 : ℚ) ^ ((30 : Int) + 1022)
      ∧ (30 : Int) ≤ 32 ∧ isBinary64 (-(33520877573 / 2 ^ 25)) = true ∧ |(-(33520877573 / 2 ^ 25) : ℚ)| ≤ 1000)
    ∧ ∃ z r : ℚ,
      (Binary64.Quantizer.construct 30 1000 (1 / 1024)).quantize
          (Binary64.Double.finite (-(33520877573 / 2 ^ 25))) = some (Binary64.Double.finite z)
      ∧ (Binary64.Quantizer.construct 30 1000 (1 / 1024)).m_reshrink
          = Binary64.Double.finite r
      ∧ (∃ k : Int, z = (k : ℚ) * r)
      ∧ ((0 : ℚ) ≤ -(33520877573 / 2 ^ 25) → 0 ≤ z ∧ z ≤ -(33520877573 / 2 ^ 25))
      ∧ ((-(33520877573 / 2 ^ 25) : ℚ) ≤ 0 → -(33520877573 / 2 ^ 25) ≤ z ∧ z ≤ 0)
      ∧ (∀ j : Int, ((0 : ℚ) ≤ -(33520877573 / 2 ^ 25) → 0 ≤ (j : ℚ) * r ∧ (j : ℚ) * r ≤ -(33520877573 / 2 ^ 25)) →
          ((-(33520877573 / 2 ^ 25) : ℚ) ≤ 0 → -(33520877573 / 2 ^ 25) ≤ (j : ℚ) * r ∧ (j : ℚ) * r ≤ 0) →
          |(j : ℚ) * r| ≤ |z|)
      ∧ (z = -(33520877573 / 2 ^ 25) ↔ ∃ j : Int, (-(33520877573 / 2 ^ 25) : ℚ) = (j : ℚ) * r) :=
  ⟨⟨by norm_num, by norm_num, isBinary64_thousand, range_thousand.1, range_thousand.2,
      by decide, isBinary64_neg isBinary64_offLattice, by norm_num [abs_le]⟩,
    quantize_snaps_toward_zero 30 1000 (1 / 1024) (-(33520877573 / 2 ^ 25)) (by norm_num) (by norm_num)
      isBinary64_thousand range_thousand.1 range_thousand.2 (by decide)
      (isBinary64_neg isBinary64_offLattice) (by norm_num [abs_le])⟩

/-- C10, as stated, fails: with `B = 30`, `maxMagnitude = 2^(-1050)` and
`minEdgeLength = 2^(-1074)`, `quantaBitsPerMinEdge = -5 > -10` and the warning is written,
but `m_magnify` is `+inf` (not `2^(B - e)`) and `m_reshrink` is `0`
(`std::pow(2.0, -1078)` underflows), so `minEdgeLength < 2^9 * reshrink` is false. -/
theorem coarse_grid_warning_condition_counterexample :
    ((0 : ℚ) < 1 / 2 ^ 1050 ∧ (0 : ℚ) < 1 / 2 ^ 1074 ∧ isBinary64 (1 / 2 ^ 1050) = true
      ∧ isBinary64 (1 / 2 ^ 1074) = true)
    ∧ quantaBitsPerMinEdge 30 (1 / 2 ^ 1050) (1 / 2 ^ 1074) = -5
    ∧ insufficientQuantaBitsWarning ∈ (Binary64.calibrate 30 (1 / 2 ^ 1050) (1 / 2 ^ 1074)).2
    ∧ (Binary64.calibrate 30 (1 / 2 ^ 1050) (1 / 2 ^ 1074)).1.m_magnify
        = Binary64.Double.posInf
    ∧ (Binary64.calibrate 30 (1 / 2 ^ 1050) (1 / 2 ^ 1074)).1.m_reshrink
        = Binary64.Double.finite 0
    ∧ ¬ ((1 / 2 ^ 1074 : ℚ) < (2 : ℚ) ^ (9 : Nat) * 0) := by
  have hq : quantaBitsPerMinEdge 30 (1 / 2 ^ 1050) (1 / 2 ^ 1074) = -5 := by
    rw [quantaBitsPerMinEdge_eq, frexpExponent_tiny_max, frexpExponent_least_subnormal]
    decide
  refine ⟨⟨by norm_num, by norm_num, isBinary64_tiny_max, isBinary64_least_subnormal⟩,
    hq, ?_, ?_, ?_, by norm_num⟩
  · rw [binary64_calibrate_snd, warning_mem_calibrateOutput_iff, hq]
    decide
  · rw [binary64_calibrate_fst, binary64_construct_magnify, frexpExponent_tiny_max]
    exact powTwo_of_ge (by decide)
  · rw [binary64_calibrate_fst, binary64_construct_reshrink, frexpExponent_tiny_max]
    exact powTwo_of_le (by decide)

/-- C10, amended. For positive bounds, `calibrate` returns with the bit count
`|quantaBitsPerMinEdge|` set, where `quantaBitsPerMinEdge = (e - B) - e_min`, and it writes
the warning line exactly when `quantaBitsPerMinEdge > -10`.  When moreover
`2^(B-1025) <= maxMagnitude < 2^(B+1022)`, it sets `m_magnify` to the double `2^(B - e)` and
`m_reshrink` to the double `2^(e - B)`, and the warning condition holds exactly when
`minEdgeLength < 2^9 * reshrink`. -/
theorem coarse_grid_warning_condition (B : Int) (maxMagnitude minEdgeLength : ℚ)
    (hmax : 0 < maxMagnitude) (hmin : 0 < minEdgeLength) :
    (Binary64.calibrate B maxMagnitude minEdgeLength).1.bitsOfPurturbationRange
        = |quantaBitsPerMinEdge B maxMagnitude minEdgeLength|
    ∧ quantaBitsPerMinEdge B maxMagnitude minEdgeLength
        = ((frexpExponent maxMagnitude + 1) - B) - frexpExponent minEdgeLength
    ∧ (insufficientQuantaBitsWarning ∈ (Binary64.calibrate B maxMagnitude minEdgeLength).2
        ↔ quantaBitsPerMinEdge B maxMagnitude minEdgeLength > -10)
    ∧ ((2 : ℚ) ^ (B - 1025) ≤ maxMagnitude → maxMagnitude < (2 : ℚ) ^ (B + 1022) →
        (Binary64.calibrate B maxMagnitude minEdgeLength).1.m_magnify
            = Binary64.Double.finite ((2 : ℚ) ^ (B - (frexpExponent maxMagnitude + 1)))
        ∧ (Binary64.calibrate B maxMagnitude minEdgeLength).1.m_reshrink
            = Binary64.Double.finite ((2 : ℚ) ^ ((frexpExponent maxMagnitude + 1) - B))
        ∧ (quantaBitsPerMinEdge B maxMagnitude minEdgeLength > -10
            ↔ minEdgeLength
                < (2 : ℚ) ^ (9 : Nat)
                  * (2 : ℚ) ^ ((frexpExponent maxMagnitude + 1) - B))) := by
  refine ⟨rfl, rfl, ?_, ?_⟩
  · rw [binary64_calibrate_snd]
    exact warning_mem_calibrateOutput_iff B maxMagnitude minEdgeLength
  · intro hlo hhi
    refine ⟨binary64_construct_magnify_of_range minEdgeLength hlo hhi,
      binary64_construct_reshrink_of_range minEdgeLength hlo hhi, ?_⟩
    have h := (coarse_grid_warning_condition_exact B maxMagnitude minEdgeLength hmax hmin).2.2.2.2.2
    rw [calibrate_fst, construct_reshrink] at h
    exact h

/-- Instance of the amended C10 at `B = 30`, `maxMagnitude = 1000`, `minEdgeLength = 1/1024`. -/
theorem coarse_grid_warning_condition_witness :
    ((0 : ℚ) < 1000 ∧ (0 : ℚ) < 1 / 1024
      ∧ (2 : ℚ) ^ ((30 : Int) - 1025) ≤ 1000 ∧ (1000 : ℚ) < (2 : ℚ) ^ ((30 : Int) + 1022))
    ∧ (Binary64.calibrate 30 1000 (1 / 1024)).1.bitsOfPurturbationRange
        = |quantaBitsPerMinEdge 30 1000 (1 / 1024)|
    ∧ quantaBitsPerMinEdge 30 1000 (1 / 1024)
        = ((frexpExponent 1000 + 1) - 30) - frexpExponent (1 / 1024)
    ∧ (insufficientQuantaBitsWarning ∈ (Binary64.calibrate 30 1000 (1 / 1024)).2
        ↔ quantaBitsPerMinEdge 30 1000 (1 / 1024) > -10)
    ∧ (Binary64.calibrate 30 1000 (1 / 1024)).1.m_magnify
        = Binary64.Double.finite ((2 : ℚ) ^ ((30 : Int) - (frexpExponent 1000 + 1)))
    ∧ (Binary64.calibrate 30 1000 (1 / 1024)).1.m_reshrink
        = Binary64.Double.finite ((2 : ℚ) ^ ((frexpExponent 1000 + 1) - (30 : Int)))
    ∧ (quantaBitsPerMinEdge 30 1000 (1 / 1024) > -10
        ↔ (1 / 1024 : ℚ)
            < (2 : ℚ) ^ (9 : Nat) * (2 : ℚ) ^ ((frexpExponent 1000 + 1) - (30 : Int))) :=
  ⟨⟨by norm_num, by norm_num, range_thousand.1, range_thousand.2⟩,
    (coarse_grid_warning_condition 30 1000 (1 / 1024) (by norm_num) (by norm_num)).1,
    (coarse_grid_warning_condition 30 1000 (1 / 1024) (by norm_num) (by norm_num)).2.1,
    (coarse_grid_warning_condition 30 1000 (1 / 1024) (by norm_num) (by norm_num)).2.2.1,
    (coarse_grid_warning_condition 30 1000 (1 / 1024) (by norm_num) (by norm_num)).2.2.2
      range_thousand.1 range_thousand.2⟩

/-- C13 fails on the code: with `B = 30` and `maxMagnitude = 1000`, `calibrate` stores
`m_magnify = 2^19`, although the larger power of two `2^20 = 2 * m_magnify` still gives
`1000 * 2^20 < 2^30` (also as a double product): `std::frexp` already returns an exponent
with `2^10 > 1000`, and the increment then costs one bit of the grid. -/
theorem finest_grid_misses_one_bit :
    (0 : ℚ) < 1000 ∧ isBinary64 1000 = true
    ∧ maxCoordinateValueBinaryExponent 1000 = 11
    ∧ (1000 : ℚ) < (2 : ℚ) ^ (10 : Int)
    ∧ (Binary64.Quantizer.construct 30 1000 (1 / 1024)).m_magnify
        = Binary64.Double.finite ((2 : ℚ) ^ (19 : Int))
    ∧ (2 : ℚ) ^ (19 : Int) < (2 : ℚ) ^ (20 : Int)
    ∧ (1000 : ℚ) * (2 : ℚ) ^ (20 : Int) < (2 : ℚ) ^ (30 : Int)
    ∧ (Binary64.Double.finite 1000).mul (Binary64.Double.finite ((2 : ℚ) ^ (20 : Int)))
        = Binary64.Double.finite (1000 * (2 : ℚ) ^ (20 : Int)) := by
  refine ⟨by norm_num, isBinary64_thousand, ?_, by norm_num, ?_, by norm_num, by norm_num, ?_⟩
  · rw [maxCoordinateValueBinaryExponent_eq, frexpExponent_thousand]
    decide
  · rw [binary64_construct_magnify, frexpExponent_thousand]
    exact powTwo_of_range (by decide) (by decide)
  · rw [mul_finite_finite]
    apply roundBinary64_of_isBinary64
    have h := isBinary64_mul_pow2 isBinary64_thousand 20
      (by
        have h1 : pow2 (-1022) ≤ 1 / 4 := pow2_le_quarter (by decide)
        have h2 : pow2 20 = 1048576 := by norm_num [pow2]
        rw [h2]
        norm_num
        linarith)
      (by
        have h1 : pow2 31 ≤ pow2 1024 := pow2_le_pow2 (by decide)
        have h2 : pow2 20 = 1048576 := by norm_num [pow2]
        rw [pow2_thirty_one] at h1
        rw [h2]
        norm_num
        linarith)
    exact h

/-- C15, as stated, fails: with `B = 30` and `maxMagnitude = 2^1023` (`minEdgeLength = 1`),
`m_reshrink` is `2^995`; for the integer `n = 2^29 < 2^B` the product
`m_reshrink * double(n)` overflows to `+inf`, and `quantize2int` of `+inf` is undefined. -/
theorem integer_round_trip_counterexample :
    ((0 : ℚ) < 2 ^ 1023 ∧ (0 : ℚ) < 1 ∧ isBinary64 (2 ^ 1023) = true ∧ isBinary64 1 = true
      ∧ fitsInt (2 ^ 29) = true ∧ |(((2 : Int) ^ 29 : Int) : ℚ)| < (2 : ℚ) ^ (30 : Int))
    ∧ (Binary64.Quantizer.construct 30 (2 ^ 1023) 1).m_reshrink
        = Binary64.Double.finite ((2 : ℚ) ^ (995 : Int))
    ∧ (Binary64.Quantizer.construct 30 (2 ^ 1023) 1).quantizedInt2double (2 ^ 29)
        = Binary64.Double.posInf
    ∧ (Binary64.Quantizer.construct 30 (2 ^ 1023) 1).quantize2int
          ((Binary64.Quantizer.construct 30 (2 ^ 1023) 1).quantizedInt2double (2 ^ 29))
        = none := by
  have hr : (Binary64.Quantizer.construct 30 (2 ^ 1023) 1).m_reshrink
      = Binary64.Double.finite (pow2 995) := by
    rw [binary64_construct_reshrink, frexpExponent_huge]
    exact powTwo_of_range (by decide) (by decide)
  have hg : (Binary64.Quantizer.construct 30 (2 ^ 1023) 1).m_magnify
      = Binary64.Double.finite (pow2 (-995)) := by
    rw [binary64_construct_magnify, frexpExponent_huge]
    exact powTwo_of_range (by decide) (by decide)
  have hd : (Binary64.Quantizer.construct 30 (2 ^ 1023) 1).quantizedInt2double (2 ^ 29)
      = Binary64.Double.posInf := by
    rw [binary64_quantizedInt2double_eq, hr]
    show Binary64.roundBinary64 (pow2 995 * (((2 : Int) ^ 29 : Int) : ℚ)) = _
    have hval : pow2 995 * (((2 : Int) ^ 29 : Int) : ℚ) = pow2 1024 := by
      have h29 : (((2 : Int) ^ 29 : Int) : ℚ) = pow2 29 := by norm_num [pow2]
      rw [h29, ← pow2_add]
      congr 1
    rw [hval]
    exact roundBinary64_pow2_overflow
  refine ⟨⟨by norm_num, by norm_num, isBinary64_huge, isBinary64_one, by decide,
    by norm_num [abs_lt]⟩, hr, hd, ?_⟩
  rw [hd, binary64_quantize2int_eq, hg, mul_posInf_finite_of_pos (pow2_pos _), toInt_posInf]

/-- C15, amended. For positive bounds with `2^(B-1025) <= maxMagnitude < 2^(B+1022)` and
every `int` value `n` with `|n| < 2^B` whose dequantized magnitude `|n| * 2^(e - B)` is
below `2^1024` (the product `m_reshrink * double(n)` does not overflow),
`quantize2int(quantizedInt2double(n))` is defined and equals `n`. -/
theorem integer_round_trip (B : Int) (maxMagnitude minEdgeLength : ℚ) (n : Int)
    (hmax : 0 < maxMagnitude) (hmin : 0 < minEdgeLength)
    (hlo : (2 : ℚ) ^ (B - 1025) ≤ maxMagnitude) (hhi : maxMagnitude < (2 : ℚ) ^ (B + 1022))
    (hfit : fitsInt n = true) (hn : |(n : ℚ)| < (2 : ℚ) ^ B)
    (hfin : |(n : ℚ)| * (2 : ℚ) ^ ((frexpExponent maxMagnitude + 1) - B)
      < (2 : ℚ) ^ (1024 : Int)) :
    (Binary64.Quantizer.construct B maxMagnitude minEdgeLength).quantize2int
        ((Binary64.Quantizer.construct B maxMagnitude minEdgeLength).quantizedInt2double n)
      = some n := by
  obtain ⟨h1, h2⟩ := exponent_bounds_of_range hlo hhi
  have hn53 := abs_lt_pow2_of_fitsInt hfit
  have hbig : |(n : ℚ) * pow2 ((frexpExponent maxMagnitude + 1) - B)| < pow2 1024 := by
    rw [abs_mul, abs_of_pos (pow2_pos _)]
    exact hfin
  have hbin := isBinary64_intCast_mul_pow2 n ((frexpExponent maxMagnitude + 1) - B)
    (by omega) hn53 hbig
  rw [mul_comm] at hbin
  have hprod : pow2 ((frexpExponent maxMagnitude + 1) - B) * (n : ℚ)
        * pow2 (B - (frexpExponent maxMagnitude + 1)) = (n : ℚ) := by
    have h := construct_reshrink_mul_int_mul_magnify B maxMagnitude minEdgeLength n
    rw [construct_reshrink, construct_magnify] at h
    exact h
  have hn1024 : |pow2 ((frexpExponent maxMagnitude + 1) - B) * (n : ℚ)
      * pow2 (B - (frexpExponent maxMagnitude + 1))| < pow2 1024 := by
    rw [hprod]
    exact lt_trans hn53 (pow2_lt_pow2 (by decide))
  have hfit2 : fitsInt (truncToInt (pow2 ((frexpExponent maxMagnitude + 1) - B) * (n : ℚ)
      * pow2 (B - (frexpExponent maxMagnitude + 1)))) = true := by
    rw [hprod, truncToInt_intCast]
    exact hfit
  rw [binary64_quantizedInt2double_of_finite n
      (binary64_construct_reshrink_of_range minEdgeLength hlo hhi) (by omega) hn53 hbig,
    binary64_quantize2int_of_fits (binary64_construct_magnify_of_range minEdgeLength hlo hhi)
      hbin hn1024 hfit2,
    hprod, truncToInt_intCast]

/-- Instance of the amended C15 at `B = 30`, `maxMagnitude = 1000`, `minEdgeLength = 1/1024`,
`n = -12345`. -/
theorem integer_round_trip_witness :
    ((0 : ℚ) < 1000 ∧ (0 : ℚ) < 1 / 1024
      ∧ (2 : ℚ) ^ ((30 : Int) - 1025) ≤ 1000 ∧ (1000 : ℚ) < (2 : ℚ) ^ ((30 : Int) + 1022)
      ∧ fitsInt (-12345) = true ∧ |((-12345 : Int) : ℚ)| < (2 : ℚ) ^ (30 : Int)
      ∧ |((-12345 : Int) : ℚ)| * (2 : ℚ) ^ ((frexpExponent 1000 + 1) - (30 : Int))
          < (2 : ℚ) ^ (1024 : Int))
    ∧ (Binary64.Quantizer.construct 30 1000 (1 / 1024)).quantize2int
        ((Binary64.Quantizer.construct 30 1000 (1 / 1024)).quantizedInt2double (-12345))
      = some (-12345) := by
  have hfin : |((-12345 : Int) : ℚ)| * (2 : ℚ) ^ ((frexpExponent 1000 + 1) - (30 : Int))
      < (2 : ℚ) ^ (1024 : Int) := by
    rw [frexpExponent_thousand]
    have h1 : pow2 31 ≤ pow2 1024 := pow2_le_pow2 (by decide)
    rw [pow2_thirty_one] at h1
    have h2 : (2 : ℚ) ^ ((10 : Int) + 1 - 30) ≤ 1 := by
      have h3 : pow2 (10 + 1 - 30) ≤ pow2 0 := pow2_le_pow2 (by decide)
      rw [pow2_zero] at h3
      exact h3
    have h4 : |((-12345 : Int) : ℚ)| = 12345 := by norm_num
    rw [h4]
    have h5 : (0 : ℚ) < (2 : ℚ) ^ ((10 : Int) + 1 - 30) := pow2_pos _
    calc (12345 : ℚ) * (2 : ℚ) ^ ((10 : Int) + 1 - 30) ≤ 12345 * 1 :=
          mul_le_mul_of_nonneg_left h2 (by norm_num)
      _ < 2147483648 := by norm_num
      _ ≤ (2 : ℚ) ^ (1024 : Int) := h1
  exact ⟨⟨by norm_num, by norm_num, range_thousand.1, range_thousand.2, by decide,
      by norm_num [abs_lt], hfin⟩,
    integer_round_trip 30 1000 (1 / 1024) (-12345) (by norm_num) (by norm_num)
      range_thousand.1 range_thousand.2 (by decide) (by norm_num [abs_lt]) hfin⟩

/-- C16, as stated, fails: with `B = 30` and `maxMagnitude = 2^(-1000)`,
`minEdgeLength = 2^(-1010)`, `m_magnify` is `+inf`; for the in-range pair
`x = 0 <= y = 2^(-1000)` the products are NaN and `+inf`, and `quantize2int` and
`quantize` are undefined at both, so there are no results to compare. -/
theorem order_preservation_counterexample :
    ((0 : ℚ) < 1 / 2 ^ 1000 ∧ (0 : ℚ) < 1 / 2 ^ 1010 ∧ isBinary64 (1 / 2 ^ 1000) = true
      ∧ isBinary64 (1 / 2 ^ 1010) = true ∧ isBinary64 0 = true
      ∧ |(0 : ℚ)| ≤ 1 / 2 ^ 1000 ∧ |(1 / 2 ^ 1000 : ℚ)| ≤ 1 / 2 ^ 1000
      ∧ (0 : ℚ) ≤ 1 / 2 ^ 1000)
    ∧ (Binary64.Quantizer.construct 30 (1 / 2 ^ 1000) (1 / 2 ^ 1010)).quantize2int
          (Binary64.Double.finite 0) = none
    ∧ (Binary64.Quantizer.construct 30 (1 / 2 ^ 1000) (1 / 2 ^ 1010)).quantize2int
          (Binary64.Double.finite (1 / 2 ^ 1000)) = none
    ∧ (Binary64.Quantizer.construct 30 (1 / 2 ^ 1000) (1 / 2 ^ 1010)).quantize
          (Binary64.Double.finite 0) = none
    ∧ (Binary64.Quantizer.construct 30 (1 / 2 ^ 1000) (1 / 2 ^ 1010)).quantize
          (Binary64.Double.finite (1 / 2 ^ 1000)) = none := by
  refine ⟨⟨by norm_num, by norm_num, isBinary64_tiny, isBinary64_tiny_edge, isBinary64_zero,
    by norm_num, ?_, by norm_num⟩,
    binary64_quantize2int_tiny_zero _, binary64_quantize2int_tiny _,
    binary64_quantize_of_none (binary64_quantize2int_tiny_zero _),
    binary64_quantize_of_none (binary64_quantize2int_tiny _)⟩
  rw [abs_of_pos (by norm_num)]

/-- C16, amended. Let `B <= 32` and let `maxMagnitude` be a binary64 number with
`2^(B-1025) <= maxMagnitude < 2^(B+1022)`, `minEdgeLength > 0`.  For all binary64 `x <= y`
with `|x| <= maxMagnitude` and `|y| <= maxMagnitude`, `quantize2int` and `quantize` are
defined at both, `quantize2int(x) <= quantize2int(y)` and `quantize(x) <= quantize(y)`. -/
theorem order_preservation (B : Int) (maxMagnitude minEdgeLength x y : ℚ)
    (hmax : 0 < maxMagnitude) (hmin : 0 < minEdgeLength)
    (hMb : isBinary64 maxMagnitude = true)
    (hlo : (2 : ℚ) ^ (B - 1025) ≤ maxMagnitude) (hhi : maxMagnitude < (2 : ℚ) ^ (B + 1022))
    (hB : B ≤ 32) (hxb : isBinary64 x = true) (hyb : isBinary64 y = true)
    (hx : |x| ≤ maxMagnitude) (hy : |y| ≤ maxMagnitude) (hxy : x ≤ y) :
    ∃ (nx ny : Int) (zx zy : ℚ),
      (Binary64.Quantizer.construct B maxMagnitude minEdgeLength).quantize2int
          (Binary64.Double.finite x) = some nx
      ∧ (Binary64.Quantizer.construct B maxMagnitude minEdgeLength).quantize2int
          (Binary64.Double.finite y) = some ny
      ∧ nx ≤ ny
      ∧ (Binary64.Quantizer.construct B maxMagnitude minEdgeLength).quantize
          (Binary64.Double.finite x) = some (Binary64.Double.finite zx)
      ∧ (Binary64.Quantizer.construct B maxMagnitude minEdgeLength).quantize
          (Binary64.Double.finite y) = some (Binary64.Double.finite zy)
      ∧ zx ≤ zy := by
  obtain ⟨h1, h2⟩ :=
    order_preservation_exact B maxMagnitude minEdgeLength x y hmax hmin hx hy hxy
  exact ⟨_, _, _, _,
    binary64_quantize2int_construct minEdgeLength hmax hlo hhi hB hxb hx,
    binary64_quantize2int_construct minEdgeLength hmax hlo hhi hB hyb hy, h1,
    (binary64_quantize_construct minEdgeLength hmax hMb hlo hhi hB hxb hx).1,
    (binary64_quantize_construct minEdgeLength hmax hMb hlo hhi hB hyb hy).1, h2⟩

/-- Instance of the amended C16 at `B = 30`, `maxMagnitude = 1000`, `minEdgeLength = 1/1024`,
`x = -(999 + 5/2^25)`, `y = 999`. -/
theorem order_preservation_witness :
    ((0 : ℚ) < 1000 ∧ (0 : ℚ) < 1 / 1024 ∧ isBinary64 1000 = true
      ∧ (2 : ℚ) ^ ((30 : Int) - 1025) ≤ 1000 ∧ (1000 : ℚ) < (2 : ℚ) ^ ((30 : Int) + 1022)
      ∧ (30 : Int) ≤ 32 ∧ isBinary64 (-(33520877573 / 2 ^ 25)) = true
      ∧ isBinary64 999 = true ∧ |(-(33520877573 / 2 ^ 25) : ℚ)| ≤ 1000
      ∧ |(999 : ℚ)| ≤ 1000 ∧ (-(33520877573 / 2 ^ 25) : ℚ) ≤ 999)
    ∧ ∃ (nx ny : Int) (zx zy : ℚ),
      (Binary64.Quantizer.construct 30 1000 (1 / 1024)).quantize2int
          (Binary64.Double.finite (-(33520877573 / 2 ^ 25))) = some nx
      ∧ (Binary64.Quantizer.construct 30 1000 (1 / 1024)).quantize2int
          (Binary64.Double.finite 999) = some ny
      ∧ nx ≤ ny
      ∧ (Binary64.Quantizer.construct 30 1000 (1 / 1024)).quantize
          (Binary64.Double.finite (-(33520877573 / 2 ^ 25))) = some (Binary64.Double.finite zx)
      ∧ (Binary64.Quantizer.construct 30 1000 (1 / 1024)).quantize
          (Binary64.Double.finite 999) = some (Binary64.Double.finite zy)
      ∧ zx ≤ zy :=
  ⟨⟨by norm_num, by norm_num, isBinary64_thousand, range_thousand.1, range_thousand.2,
      by decide, isBinary64_neg isBinary64_offLattice, isBinary64_nine_nine_nine,
      by norm_num [abs_le], by norm_num [abs_le], by norm_num⟩,
    order_preservation 30 1000 (1 / 1024) (-(33520877573 / 2 ^ 25)) 999 (by norm_num)
      (by norm_num) isBinary64_thousand range_thousand.1 range_thousand.2 (by decide)
      (isBinary64_neg isBinary64_offLattice) isBinary64_nine_nine_nine
      (by norm_num [abs_le]) (by norm_num [abs_le]) (by norm_num)⟩

/-- C18, as stated, fails: with `B = 30` and `maxMagnitude = 2^(-1000)`, `m_magnify` is
`+inf`, so `maxMagnitude * m_magnify` is `+inf`, not below `2^(B-1)`, and for the in-range
`x = 2^(-1000)` the conversion in `quantize2int(x)` is undefined although `B <= 32`. -/
theorem lattice_occupancy_counterexample :
    ((0 : ℚ) < 1 / 2 ^ 1000 ∧ isBinary64 (1 / 2 ^ 1000) = true
      ∧ |(1 / 2 ^ 1000 : ℚ)| ≤ 1 / 2 ^ 1000 ∧ (30 : Int) ≤ 32)
    ∧ (Binary64.Quantizer.construct 30 (1 / 2 ^ 1000) (1 / 2 ^ 1010)).m_magnify
        = Binary64.Double.posInf
    ∧ (¬ ∃ g : ℚ, (Binary64.Quantizer.construct 30 (1 / 2 ^ 1000) (1 / 2 ^ 1010)).m_magnify
        = Binary64.Double.finite g)
    ∧ (Binary64.Double.finite (1 / 2 ^ 1000)).mul
          (Binary64.Quantizer.construct 30 (1 / 2 ^ 1000) (1 / 2 ^ 1010)).m_magnify
        = Binary64.Double.posInf
    ∧ (Binary64.Quantizer.construct 30 (1 / 2 ^ 1000) (1 / 2 ^ 1010)).quantize2int
          (Binary64.Double.finite (1 / 2 ^ 1000)) = none := by
  refine ⟨⟨by norm_num, isBinary64_tiny, ?_, by decide⟩,
    binary64_construct_tiny_magnify _, ?_, ?_, binary64_quantize2int_tiny _⟩
  · rw [abs_of_pos (by norm_num)]
  · rw [binary64_construct_tiny_magnify]
    rintro ⟨g, hg⟩
    exact Binary64.Double.noConfusion hg
  · rw [binary64_construct_tiny_magnify, mul_finite_posInf_of_pos (by norm_num)]

/-- C18, amended. For every `maxMagnitude > 0` with
`2^(B-1025) <= maxMagnitude < 2^(B+1022)`, after `calibrate` `m_magnify` is a finite double
with `2^(B-2) <= maxMagnitude * m_magnify < 2^(B-1)`; hence, whenever `B <= 32`, for every
binary64 `x` with `|x| <= maxMagnitude`, `quantize2int(x)` is defined, a value of a 32-bit
`int`, and `|quantize2int(x)| < 2^(B-1)`. -/
theorem lattice_occupancy (B : Int) (maxMagnitude minEdgeLength : ℚ)
    (hmax : 0 < maxMagnitude)
    (hlo : (2 : ℚ) ^ (B - 1025) ≤ maxMagnitude) (hhi : maxMagnitude < (2 : ℚ) ^ (B + 1022)) :
    (∃ g : ℚ, (Binary64.Quantizer.construct B maxMagnitude minEdgeLength).m_magnify
          = Binary64.Double.finite g
        ∧ (2 : ℚ) ^ (B - 2) ≤ maxMagnitude * g ∧ maxMagnitude * g < (2 : ℚ) ^ (B - 1))
    ∧ ∀ x : ℚ, isBinary64 x = true → |x| ≤ maxMagnitude → B ≤ 32 →
        ∃ n : Int, (Binary64.Quantizer.construct B maxMagnitude minEdgeLength).quantize2int
            (Binary64.Double.finite x) = some n
          ∧ |(n : ℚ)| < (2 : ℚ) ^ (B - 1)
          ∧ fitsInt n = true := by
  obtain ⟨⟨h1, h2⟩, h3⟩ := lattice_occupancy_exact B maxMagnitude minEdgeLength hmax
  rw [construct_magnify] at h1 h2
  refine ⟨⟨_, binary64_construct_magnify_of_range minEdgeLength hlo hhi, h1, h2⟩, ?_⟩
  intro x hxb hx hB
  obtain ⟨h4, h5⟩ := h3 x hx
  exact ⟨_, binary64_quantize2int_construct minEdgeLength hmax hlo hhi hB hxb hx, h4, h5 hB⟩

/-- Instance of the amended C18 at `B = 30`, `maxMagnitude = 1000`, `minEdgeLength = 1/1024`,
`x = -999`. -/
theorem lattice_occupancy_witness :
    ((0 : ℚ) < 1000
      ∧ (2 : ℚ) ^ ((30 : Int) - 1025) ≤ 1000 ∧ (1000 : ℚ) < (2 : ℚ) ^ ((30 : Int) + 1022)
      ∧ isBinary64 (-999) = true ∧ |(-999 : ℚ)| ≤ 1000 ∧ (30 : Int) ≤ 32)
    ∧ (∃ g : ℚ, (Binary64.Quantizer.construct 30 1000 (1 / 1024)).m_magnify
          = Binary64.Double.finite g
        ∧ (2 : ℚ) ^ ((30 : Int) - 2) ≤ 1000 * g ∧ 1000 * g < (2 : ℚ) ^ ((30 : Int) - 1))
    ∧ ∃ n : Int, (Binary64.Quantizer.construct 30 1000 (1 / 1024)).quantize2int
          (Binary64.Double.finite (-999)) = some n
        ∧ |(n : ℚ)| < (2 : ℚ) ^ ((30 : Int) - 1)
        ∧ fitsInt n = true :=
  ⟨⟨by norm_num, range_thousand.1, range_thousand.2,
      isBinary64_neg isBinary64_nine_nine_nine, by norm_num [abs_le], by decide⟩,
    (lattice_occupancy 30 1000 (1 / 1024) (by norm_num) range_thousand.1 range_thousand.2).1,
    (lattice_occupancy 30 1000 (1 / 1024) (by norm_num) range_thousand.1 range_thousand.2).2
      (-999) (isBinary64_neg isBinary64_nine_nine_nine) (by norm_num [abs_le]) (by decide)⟩

/-- C17, as stated, fails: with `B = 30`, `maxMagnitude = 2^(-1000)`,
`minEdgeLength = 2^(-1010)` and `k = 100` (all four bounds binary64 numbers), the scaled
calibration has `m_magnify = 2^928` while the unscaled one has `m_magnify = +inf`, which
divided by `2^100` is not `2^928`; the bit counts agree. -/
theorem scale_invariance_counterexample :
    ((0 : ℚ) < 1 / 2 ^ 1000 ∧ (0 : ℚ) < 1 / 2 ^ 1010 ∧ isBinary64 (1 / 2 ^ 1000) = true
      ∧ isBinary64 (1 / 2 ^ 1010) = true
      ∧ isBinary64 ((2 : ℚ) ^ (100 : Int) * (1 / 2 ^ 1000)) = true
      ∧ isBinary64 ((2 : ℚ) ^ (100 : Int) * (1 / 2 ^ 1010)) = true)
    ∧ (Binary64.Quantizer.construct 30 ((2 : ℚ) ^ (100 : Int) * (1 / 2 ^ 1000))
          ((2 : ℚ) ^ (100 : Int) * (1 / 2 ^ 1010))).m_magnify
        = Binary64.Double.finite ((2 : ℚ) ^ (928 : Int))
    ∧ (Binary64.Quantizer.construct 30 (1 / 2 ^ 1000) (1 / 2 ^ 1010)).m_magnify
        = Binary64.Double.posInf
    ∧ (¬ ∃ g : ℚ, (Binary64.Quantizer.construct 30 (1 / 2 ^ 1000) (1 / 2 ^ 1010)).m_magnify
          = Binary64.Double.finite g)
    ∧ (Binary64.Quantizer.construct 30 ((2 : ℚ) ^ (100 : Int) * (1 / 2 ^ 1000))
          ((2 : ℚ) ^ (100 : Int) * (1 / 2 ^ 1010))).bitsOfPurturbationRange
        = (Binary64.Quantizer.construct 30 (1 / 2 ^ 1000)
            (1 / 2 ^ 1010)).bitsOfPurturbationRange := by
  have hfM : frexpExponent (pow2 100 * (1 / 2 ^ 1000)) = -899 := by
    rw [frexpExponent_pow2_mul 100 (by norm_num), frexpExponent_tiny]
    decide
  have hfm : frexpExponent (pow2 100 * (1 / 2 ^ 1010)) = -909 := by
    rw [frexpExponent_pow2_mul 100 (by norm_num), frexpExponent_tiny_edge]
    decide
  have hbM : isBinary64 (pow2 100 * (1 / 2 ^ 1000)) = true := by
    refine isBinary64_of_int_mul (2 ^ 52) hfM (by decide) ?_
    have hmax : max ((-899 : Int) - 53) (-1074) = -952 := by decide
    rw [hmax]
    norm_num [pow2]
  have hbm : isBinary64 (pow2 100 * (1 / 2 ^ 1010)) = true := by
    refine isBinary64_of_int_mul (2 ^ 52) hfm (by decide) ?_
    have hmax : max ((-909 : Int) - 53) (-1074) = -962 := by decide
    rw [hmax]
    norm_num [pow2]
  rw [← pow2_eq]
  refine ⟨⟨by norm_num, by norm_num, isBinary64_tiny, isBinary64_tiny_edge, hbM, hbm⟩,
    ?_, binary64_construct_tiny_magnify _, ?_, ?_⟩
  · rw [binary64_construct_magnify, hfM]
    exact powTwo_of_range (by decide) (by decide)
  · rw [binary64_construct_tiny_magnify]
    rintro ⟨g, hg⟩
    exact Binary64.Double.noConfusion hg
  · rw [binary64_bitsOfPurturbationRange_eq, binary64_bitsOfPurturbationRange_eq,
      binary64_construct_bits, binary64_construct_bits,
      quantaBitsPerMinEdge_pow2_mul 30 100 (by norm_num) (by norm_num)]

/-- C17, amended. For positive bounds and every integer `k`, calibrating from
`2^k * maxMagnitude` and `2^k * minEdgeLength` gives the same `bitsOfPurturbationRange()`
and the same warning decision (indeed the same lines written).  When both `maxMagnitude`
and `2^k * maxMagnitude` lie in `[2^(B-1025), 2^(B+1022))`, all four scale factors are finite
doubles, `m_reshrink` is multiplied by `2^k` and `m_magnify` is divided by `2^k`. -/
theorem scale_invariance (B k : Int) (maxMagnitude minEdgeLength : ℚ)
    (hmax : 0 < maxMagnitude) (hmin : 0 < minEdgeLength) :
    (Binary64.Quantizer.construct B ((2 : ℚ) ^ k * maxMagnitude)
          ((2 : ℚ) ^ k * minEdgeLength)).bitsOfPurturbationRange
        = (Binary64.Quantizer.construct B maxMagnitude minEdgeLength).bitsOfPurturbationRange
    ∧ (insufficientQuantaBitsWarning
          ∈ (Binary64.calibrate B ((2 : ℚ) ^ k * maxMagnitude) ((2 : ℚ) ^ k * minEdgeLength)).2
        ↔ insufficientQuantaBitsWarning
          ∈ (Binary64.calibrate B maxMagnitude minEdgeLength).2)
    ∧ (Binary64.calibrate B ((2 : ℚ) ^ k * maxMagnitude) ((2 : ℚ) ^ k * minEdgeLength)).2
        = (Binary64.calibrate B maxMagnitude minEdgeLength).2
    ∧ ((2 : ℚ) ^ (B - 1025) ≤ maxMagnitude → maxMagnitude < (2 : ℚ) ^ (B + 1022) →
        (2 : ℚ) ^ (B - 1025) ≤ (2 : ℚ) ^ k * maxMagnitude →
        (2 : ℚ) ^ k * maxMagnitude < (2 : ℚ) ^ (B + 1022) →
        ∃ g r g' r' : ℚ,
          (Binary64.Quantizer.construct B maxMagnitude minEdgeLength).m_magnify
              = Binary64.Double.finite g
          ∧ (Binary64.Quantizer.construct B maxMagnitude minEdgeLength).m_reshrink
              = Binary64.Double.finite r
          ∧ (Binary64.Quantizer.construct B ((2 : ℚ) ^ k * maxMagnitude)
                ((2 : ℚ) ^ k * minEdgeLength)).m_magnify = Binary64.Double.finite g'
          ∧ (Binary64.Quantizer.construct B ((2 : ℚ) ^ k * maxMagnitude)
                ((2 : ℚ) ^ k * minEdgeLength)).m_reshrink = Binary64.Double.finite r'
          ∧ r' = (2 : ℚ) ^ k * r ∧ g' = g / (2 : ℚ) ^ k) := by
  obtain ⟨_, _, hout, hr, hg⟩ :=
    scale_invariance_exact B k maxMagnitude minEdgeLength hmax hmin
  have hq : quantaBitsPerMinEdge B ((2 : ℚ) ^ k * maxMagnitude) ((2 : ℚ) ^ k * minEdgeLength)
      = quantaBitsPerMinEdge B maxMagnitude minEdgeLength :=
    quantaBitsPerMinEdge_pow2_mul B k hmax hmin
  refine ⟨?_, ?_, ?_, ?_⟩
  · rw [binary64_bitsOfPurturbationRange_eq, binary64_bitsOfPurturbationRange_eq,
      binary64_construct_bits, binary64_construct_bits, hq]
  · rw [binary64_calibrate_snd, binary64_calibrate_snd, warning_mem_calibrateOutput_iff,
      warning_mem_calibrateOutput_iff, hq]
  · rw [binary64_calibrate_snd, binary64_calibrate_snd]
    rw [calibrate_snd, calibrate_snd] at hout
    exact hout
  · intro hlo hhi hlo2 hhi2
    exact ⟨_, _, _, _,
      binary64_construct_magnify_of_range minEdgeLength hlo hhi,
      binary64_construct_reshrink_of_range minEdgeLength hlo hhi,
      binary64_construct_magnify_of_range ((2 : ℚ) ^ k * minEdgeLength) hlo2 hhi2,
      binary64_construct_reshrink_of_range ((2 : ℚ) ^ k * minEdgeLength) hlo2 hhi2,
      by
        rw [construct_reshrink, construct_reshrink] at hr
        exact hr,
      by
        rw [construct_magnify, construct_magnify] at hg
        exact hg⟩

/-- Instance of the amended C17 at `B = 30`, `k = 3`, `maxMagnitude = 1000`,
`minEdgeLength = 1/1024`. -/
theorem scale_invariance_witness :
    ((0 : ℚ) < 1000 ∧ (0 : ℚ) < 1 / 1024
      ∧ (2 : ℚ) ^ ((30 : Int) - 1025) ≤ 1000 ∧ (1000 : ℚ) < (2 : ℚ) ^ ((30 : Int) + 1022)
      ∧ (2 : ℚ) ^ ((30 : Int) - 1025) ≤ (2 : ℚ) ^ (3 : Int) * 1000
      ∧ (2 : ℚ) ^ (3 : Int) * 1000 < (2 : ℚ) ^ ((30 : Int) + 1022))
    ∧ (Binary64.Quantizer.construct 30 ((2 : ℚ) ^ (3 : Int) * 1000)
          ((2 : ℚ) ^ (3 : Int) * (1 / 1024))).bitsOfPurturbationRange
        = (Binary64.Quantizer.construct 30 1000 (1 / 1024)).bitsOfPurturbationRange
    ∧ (Binary64.calibrate 30 ((2 : ℚ) ^ (3 : Int) * 1000) ((2 : ℚ) ^ (3 : Int) * (1 / 1024))).2
        = (Binary64.calibrate 30 1000 (1 / 1024)).2
    ∧ ∃ g r g' r' : ℚ,
        (Binary64.Quantizer.construct 30 1000 (1 / 1024)).m_magnify
            = Binary64.Double.finite g
        ∧ (Binary64.Quantizer.construct 30 1000 (1 / 1024)).m_reshrink
            = Binary64.Double.finite r
        ∧ (Binary64.Quantizer.construct 30 ((2 : ℚ) ^ (3 : Int) * 1000)
              ((2 : ℚ) ^ (3 : Int) * (1 / 1024))).m_magnify = Binary64.Double.finite g'
        ∧ (Binary64.Quantizer.construct 30 ((2 : ℚ) ^ (3 : Int) * 1000)
              ((2 : ℚ) ^ (3 : Int) * (1 / 1024))).m_reshrink = Binary64.Double.finite r'
        ∧ r' = (2 : ℚ) ^ (3 : Int) * r ∧ g' = g / (2 : ℚ) ^ (3 : Int) := by
  have hlo2 : (2 : ℚ) ^ ((30 : Int) - 1025) ≤ (2 : ℚ) ^ (3 : Int) * 1000 :=
    le_trans range_thousand.1 (by norm_num)
  have hhi2 : (2 : ℚ) ^ (3 : Int) * 1000 < (2 : ℚ) ^ ((30 : Int) + 1022) := by
    have h : pow2 13 ≤ pow2 (30 + 1022) := pow2_le_pow2 (by decide)
    have h13 : pow2 13 = 8192 := by norm_num [pow2]
    rw [h13] at h
    exact lt_of_lt_of_le (by norm_num) h
  exact ⟨⟨by norm_num, by norm_num, range_thousand.1, range_thousand.2, hlo2, hhi2⟩,
    (scale_invariance 30 3 1000 (1 / 1024) (by norm_num) (by norm_num)).1,
    (scale_invariance 30 3 1000 (1 / 1024) (by norm_num) (by norm_num)).2.2.1,
    (scale_invariance 30 3 1000 (1 / 1024) (by norm_num) (by norm_num)).2.2.2
      range_thousand.1 range_thousand.2 hlo2 hhi2⟩

end Quantization
end Cork
